import Mathlib

/-
Verification of the MTSDF (multi-channel true signed distance field) core of
the repository, shallowly embedded in Lean 4.

Conventions of the embedding:
* Rust `f32` values are modelled as exact rationals (`ℚ`); `f32` arithmetic
  is modelled as exact rational arithmetic.
* The transcendental / irrational `f32` operations used by the code
  (`sqrt`, `sin`, `cos`, `acos`, `powf(1/3)`) are abstracted into a record
  of rational-valued operations, `FOps`, threaded through the definitions.
  Theorems quantify over all such records, hence hold in particular for
  the rounded operations the real program uses; concrete evaluations
  instantiate them with a rational approximation that agrees with the true
  operation on every comparison the evaluation performs.
* Rust `f32::signum` returns `1.0` on `+0.0` (it is never `0.0` for finite
  non-NaN input); `fsignum` below models this.
* Rust `u64` seeds only ever shrink (`>>= 1`, `/= 3`), so they are
  modelled as `ℕ`.
* Rust slice indexing is modelled with `List.getD`; every in-bounds use is
  backed by a bounds lemma where a theorem depends on it.
-/

namespace Mtsdf

/-- Abstraction of the irrational f32 operations used by the code.
`cbrt` stands for `powf(1.0/3.0)`. -/
structure FOps where
  sqrt : ℚ → ℚ
  sin : ℚ → ℚ
  cos : ℚ → ℚ
  acos : ℚ → ℚ
  cbrt : ℚ → ℚ

/-- Model of Rust `f32::signum` for finite inputs: `1.0` for positives and
`+0.0`, `-1.0` for negatives (we do not model `-0.0`, which only affects
which of the two nonzero signs is produced on an exact zero). -/
def fsignum (q : ℚ) : ℚ := if q < 0 then -1 else 1

/-- Model of an `as i32` / `as u32` float-to-int cast: truncation toward zero. -/
def truncQ (q : ℚ) : ℤ := if q < 0 then -(⌊(-q : ℚ)⌋) else ⌊q⌋

/-- Model of `f32::clamp`. -/
def clampQ (q lo hi : ℚ) : ℚ := min (max q lo) hi

/-- The largest finite f32, `f32::MAX` = (2^24 - 1) * 2^104. -/
def F32_MAX : ℚ := (2 ^ 24 - 1) * 2 ^ 104

/-- `f32::MIN` = -`f32::MAX`. -/
def F32_MIN : ℚ := -F32_MAX

/-- 2D vector over the rationals (source: `Vec2` in sdf/mod.rs). -/
structure Vec2 where
  x : ℚ
  y : ℚ
deriving DecidableEq

instance : Inhabited Vec2 := ⟨⟨0, 0⟩⟩

instance : Add Vec2 := ⟨fun a b => ⟨a.x + b.x, a.y + b.y⟩⟩
instance : Sub Vec2 := ⟨fun a b => ⟨a.x - b.x, a.y - b.y⟩⟩
instance : Neg Vec2 := ⟨fun a => ⟨-a.x, -a.y⟩⟩
instance : SMul ℚ Vec2 := ⟨fun k v => ⟨v.x * k, v.y * k⟩⟩

def vec2 (x y : ℚ) : Vec2 := ⟨x, y⟩

lemma Vec2.add_def (a b : Vec2) : a + b = ⟨a.x + b.x, a.y + b.y⟩ := rfl

lemma Vec2.sub_def (a b : Vec2) : a - b = ⟨a.x - b.x, a.y - b.y⟩ := rfl

lemma Vec2.neg_def (a : Vec2) : -a = ⟨-a.x, -a.y⟩ := rfl

lemma Vec2.smul_def (k : ℚ) (v : Vec2) : k • v = ⟨v.x * k, v.y * k⟩ := rfl

lemma Vec2.mk_eq (a b c d : ℚ) :
    (Vec2.mk a b = Vec2.mk c d) ↔ (a = c ∧ b = d) := by
  constructor
  · intro h; exact ⟨congrArg Vec2.x h, congrArg Vec2.y h⟩
  · rintro ⟨h1, h2⟩; rw [h1, h2]

/-- Orthogonal vector, counter-clockwise if the flag is true. -/
def Vec2.orthogonal (v : Vec2) (counter_clockwise : Bool) : Vec2 :=
  if counter_clockwise then vec2 (-v.y) v.x else vec2 v.y (-v.x)

def Vec2.dot (a b : Vec2) : ℚ := a.x * b.x + a.y * b.y

def Vec2.cross (a b : Vec2) : ℚ := a.x * b.y - a.y * b.x

def Vec2.length_sqr (v : Vec2) : ℚ := v.x * v.x + v.y * v.y

def Vec2.length (v : Vec2) (ops : FOps) : ℚ := ops.sqrt v.length_sqr

/-- `normalize` divides by the (abstracted) square-root of the squared length. -/
def Vec2.normalize (v : Vec2) (ops : FOps) : Vec2 :=
  (1 / v.length ops) • v

def Vec2.shoelace (a b : Vec2) : ℚ := (b.x - a.x) * (a.y + b.y)

/-- Generic linear interpolation `a + (b - a) * t`. -/
def lerpQ (a b t : ℚ) : ℚ := a + (b - a) * t

def Vec2.lerp (a b : Vec2) (t : ℚ) : Vec2 := a + t • (b - a)

/-- Color bit masks (bitflags over `u8` in the source); `ℕ` carries the bits. -/
abbrev Color := ℕ

def BLACK : Color := 0
def RED : Color := 1
def GREEN : Color := 2
def YELLOW : Color := 3
def BLUE : Color := 4
def MAGENTA : Color := 5
def CYAN : Color := 6
def WHITE : Color := 7

/-- bitflags `contains`: all bits of the flag are present. -/
def Color.containsC (c flag : Color) : Bool := decide (c &&& flag = flag)

/-- Candidate nearest-point record (source: `SignedDistance` in sdf/mod.rs). -/
structure SignedDistance where
  dist : ℚ
  dot : ℚ
deriving DecidableEq

instance : Inhabited SignedDistance := ⟨⟨0, 0⟩⟩

/-- Total comparison of two rationals (f32 `partial_cmp` on non-NaN input). -/
def cmpQ (a b : ℚ) : Ordering :=
  if a < b then .lt else if a = b then .eq else .gt

/-- The source's `PartialOrd` for `SignedDistance`: compare `|dist|`, then
resolve ties with `Ordering.then` on the `dot` comparison. -/
def SignedDistance.partial_cmp (a b : SignedDistance) : Ordering :=
  (cmpQ |a.dist| |b.dist|).then (cmpQ a.dot b.dot)

/-- Rust `<` derived from `partial_cmp == Some(Less)`. -/
def SignedDistance.ltB (a b : SignedDistance) : Bool :=
  decide (a.partial_cmp b = Ordering.lt)

lemma ordering_eq_ne_lt : (Ordering.eq = Ordering.lt) = False := by simp

lemma ordering_gt_ne_lt : (Ordering.gt = Ordering.lt) = False := by simp

lemma ordering_lt_eq_lt : (Ordering.lt = Ordering.lt) = True := by simp

/-- Outline segment (source: `Segment` in sdf/segment.rs). -/
inductive Segment where
  | Line (p0 p1 : Vec2)
  | Quad (p0 p1 p2 : Vec2)
  | Cubic (p0 p1 p2 p3 : Vec2)
deriving DecidableEq

instance : Inhabited Segment := ⟨.Line ⟨0, 0⟩ ⟨0, 0⟩⟩

structure Edge where
  segment : Segment
  color : Color
deriving DecidableEq

instance : Inhabited Edge := ⟨⟨default, 0⟩⟩

structure Contour where
  edges : List Edge
deriving DecidableEq

instance : Inhabited Contour := ⟨⟨[]⟩⟩

/-- Bounding box (i16 coordinates in the source, generalized to ℚ). -/
structure Rect where
  x_min : ℚ
  y_min : ℚ
  x_max : ℚ
  y_max : ℚ
deriving DecidableEq

structure Shape where
  contours : List Contour
  bounds : Rect

structure ColouredShape where
  contours : List Contour
  bounds : Rect

def Segment.white_edge (s : Segment) : Edge := ⟨s, WHITE⟩

def Segment.colored (s : Segment) (c : Color) : Edge := ⟨s, c⟩

/-- De Casteljau sampling of a segment at parameter `t`. -/
def Segment.sample (s : Segment) (t : ℚ) : Vec2 :=
  match s with
  | .Line a b => Vec2.lerp a b t
  | .Quad a b c => Vec2.lerp (Vec2.lerp a b t) (Vec2.lerp b c t) t
  | .Cubic a b c d =>
      let p12 := Vec2.lerp b c t
      Vec2.lerp (Vec2.lerp (Vec2.lerp a b t) p12 t)
                (Vec2.lerp p12 (Vec2.lerp c d t) t) t

/-- Tangent direction of a segment at parameter `t`, with the source's
fallbacks for degenerate (exactly zero) tangents. -/
def Segment.direction (s : Segment) (t : ℚ) : Vec2 :=
  match s with
  | .Line a b => b - a
  | .Quad a b c =>
      let tangent := Vec2.lerp (b - a) (c - b) t
      if tangent.x = 0 ∧ tangent.y = 0 then c - a else tangent
  | .Cubic a b c d =>
      let tangent := Vec2.lerp (Vec2.lerp (b - a) (c - b) t)
                               (Vec2.lerp (c - b) (d - c) t) t
      if tangent.x = 0 ∧ tangent.y = 0 then
        if t = 0 then c - a
        else if t = 1 then d - b
        else tangent
      else tangent

/-- Split a segment into three parts at t = 1/3 and t = 2/3
(source: `Segment::split_in_three`). -/
def Segment.split_in_three (s : Segment) : List Segment :=
  match s with
  | .Line a b =>
      let third := s.sample (1/3)
      let two := s.sample (2/3)
      [.Line a third, .Line third two, .Line two b]
  | .Quad a b c =>
      let third := s.sample (1/3)
      let two := s.sample (2/3)
      [.Quad a (Vec2.lerp a b (1/3)) third,
       .Quad third (Vec2.lerp (Vec2.lerp a b (5/9)) (Vec2.lerp b c (4/9)) (1/2)) two,
       .Quad two (Vec2.lerp b c (2/3)) c]
  | .Cubic a b c d =>
      let third := s.sample (1/3)
      let two := s.sample (2/3)
      let first := Segment.Cubic a
        (if a = b then a else Vec2.lerp a b (1/3))
        (Vec2.lerp (Vec2.lerp a b (1/3)) (Vec2.lerp b c (1/3)) (1/3))
        third
      let second := Segment.Cubic third
        (Vec2.lerp (Vec2.lerp (Vec2.lerp a b (1/3)) (Vec2.lerp b c (1/3)) (1/3))
                   (Vec2.lerp (Vec2.lerp b c (1/3)) (Vec2.lerp c d (1/3)) (1/3)) (2/3))
        (Vec2.lerp (Vec2.lerp (Vec2.lerp a b (2/3)) (Vec2.lerp b c (2/3)) (2/3))
                   (Vec2.lerp (Vec2.lerp b c (2/3)) (Vec2.lerp c d (2/3)) (2/3)) (1/3))
        two
      let third' := Segment.Cubic two
        (Vec2.lerp (Vec2.lerp b c (2/3)) (Vec2.lerp c d (2/3)) (2/3))
        (if c = d then d else Vec2.lerp c d (2/3))
        d
      [first, second, third']

/-- The shoelace total computed by `Contour::winding` for a contour with at
least one edge (the zero-edge case returns before computing a total). -/
def Contour.windingTotal (c : Contour) : ℚ :=
  if c.edges.length = 1 then
    let seg := (c.edges.getD 0 default).segment
    let a := seg.sample 0
    let b := seg.sample (1/3)
    let cc := seg.sample (2/3)
    a.shoelace b + b.shoelace cc + cc.shoelace a
  else if c.edges.length = 2 then
    let sega := (c.edges.getD 0 default).segment
    let segb := (c.edges.getD 1 default).segment
    let a := sega.sample 0
    let b := sega.sample (1/2)
    let cc := segb.sample 0
    let d := segb.sample (1/2)
    a.shoelace b + b.shoelace cc + cc.shoelace d + d.shoelace a
  else
    let prev0 := ((c.edges.getLastD default).segment).sample 0
    (c.edges.foldl
      (fun (st : ℚ × Vec2) edge =>
        let p := edge.segment.sample 0
        (st.1 + st.2.shoelace p, p))
      (0, prev0)).1

/-- Winding number of a contour (source: `Contour::winding`).
The Rust code computes `total.signum() as i32` at the end; `f32::signum`
of `+0.0` is `1.0`, so a nonempty contour never yields `0`. -/
def Contour.winding (c : Contour) : ℤ :=
  if c.edges.length = 0 then 0
  else truncQ (fsignum c.windingTotal)

/-- Exact value of the f32 constant `std::f32::consts::PI`
(`0x40490FDB` = 13176795 * 2^-22). -/
def PI32 : ℚ := 13176795 / 4194304

/-- Solve `a X^2 + b X + c = 0` (source: `solve_quadratic`).
Returns the number of roots found and the root array; unfound slots are 0. -/
def solve_quadratic (ops : FOps) (a b c : ℚ) : ℕ × List ℚ :=
  if a = 0 then
    if b = 0 then (0, [0, 0])
    else (1, [-c / b, 0])
  else
    let delta := b * b - 4 * a * c
    if delta < 0 then (0, [0, 0])
    else if delta = 0 then (1, [-b / (2 * a), 0])
    else
      let d := ops.sqrt delta
      (2, [(-b - d) / (2 * a), (-b + d) / (2 * a)])

/-- Solve `a X^3 + b X^2 + c X + d = 0` (source: `solve_cubic`).
The literals `1e6` and `1e-12` appear as exact rationals; only the
comparison they take part in matters for the theorems below. -/
def solve_cubic (ops : FOps) (a b c d : ℚ) : ℕ × List ℚ :=
  if a ≠ 0 ∧ |b / a| < 1000000 then
    let a2 := a * a
    let q := 1 / 9 * (a2 - 3 * b)
    let r := 1 / 54 * (a * (2 * a2 - 9 * b) + 27 * c)
    let r2 := r * r
    let q3 := q * q * q
    let a3 := a * (1 / 3)
    if r2 < q3 then
      let t := r / ops.sqrt q3
      let t := ops.acos (clampQ t (-1) 1)
      let q' := -2 * ops.sqrt q
      (3, [q' * ops.cos (1 / 3 * t) - a3,
           q' * ops.cos (1 / 3 * (t + 2 * PI32)) - a3,
           q' * ops.cos (1 / 3 * (t - 2 * PI32)) - a3])
    else
      let u := (if r < 0 then 1 else -1) * ops.cbrt (|r| + ops.sqrt (r2 - q3))
      let v := if u = 0 then 0 else q / u
      let first := u + v - a3
      if u = v ∨ |u - v| < 1 / 1000000000000 * |u + v| then
        (2, [first, -(1 / 2) * (u + v) - a3, 0])
      else (1, [first, 0, 0])
  else
    let (n, t) := solve_quadratic ops b c d
    (n, [t.getD 0 0, t.getD 1 0, 0])

/-- `CUBIC_SEARCH_STARTS` from the source. -/
def CUBIC_SEARCH_STARTS : ℕ := 4

/-- `CUBIC_SEARCH_STEPS` from the source. -/
def CUBIC_SEARCH_STEPS : ℕ := 4

/-- The starting parameters seeded by the cubic arm's iterative search:
`for i in 0..=CUBIC_SEARCH_STARTS { let t = i as f32 / CUBIC_SEARCH_STARTS as f32; ... }`.
Note the range is inclusive on both ends. -/
def cubicStartParams : List ℚ :=
  (List.range (CUBIC_SEARCH_STARTS + 1)).map
    (fun i => (i : ℚ) / (CUBIC_SEARCH_STARTS : ℚ))

/-- One seed's Newton refinement in the cubic arm of `signed_distance`,
with `fuel` remaining iteration steps. The state is
`(min_distance, param)`; the loop breaks as soon as the updated `t`
leaves the open interval (0, 1). -/
def newtonRefine (ops : FOps) (qa ab br as_ : Vec2) :
    ℕ → ℚ → Vec2 → ℚ × ℚ → ℚ × ℚ
  | 0, _, _, st => st
  | fuel + 1, t, qe, st =>
      let d1 := (3 : ℚ) • ab + (6 * t) • br + (3 * t * t) • as_
      let d2 := (6 : ℚ) • br + (6 * t) • as_
      let t' := t - (qe.dot d1 / d1.length_sqr + qe.dot d2)
      if t' ≤ 0 ∨ 1 ≤ t' then st
      else
        let qe' := qa + (3 * t') • ab + (3 * t' * t') • br + (t' * t' * t') • as_
        let distance := ops.sqrt qe'.length_sqr
        let st' := if distance < |st.1| then (fsignum (d1.cross qe') * distance, t') else st
        newtonRefine ops qa ab br as_ fuel t' qe' st'

/-- Instrumented variant of `newtonRefine` that also counts how many
Newton updates of `t` were performed. -/
def newtonRefineT (ops : FOps) (qa ab br as_ : Vec2) :
    ℕ → ℚ → Vec2 → ℚ × ℚ → (ℚ × ℚ) × ℕ
  | 0, _, _, st => (st, 0)
  | fuel + 1, t, qe, st =>
      let d1 := (3 : ℚ) • ab + (6 * t) • br + (3 * t * t) • as_
      let d2 := (6 : ℚ) • br + (6 * t) • as_
      let t' := t - (qe.dot d1 / d1.length_sqr + qe.dot d2)
      if t' ≤ 0 ∨ 1 ≤ t' then (st, 1)
      else
        let qe' := qa + (3 * t') • ab + (3 * t' * t') • br + (t' * t' * t') • as_
        let distance := ops.sqrt qe'.length_sqr
        let st' := if distance < |st.1| then (fsignum (d1.cross qe') * distance, t') else st
        let r := newtonRefineT ops qa ab br as_ fuel t' qe' st'
        (r.1, r.2 + 1)

/-- Closest signed distance from `p` to a segment together with the
parameter of the closest point (source: `Segment::signed_distance`). -/
def Segment.signed_distance (s : Segment) (ops : FOps) (p : Vec2) :
    SignedDistance × ℚ :=
  match s with
  | .Line p0 p1 =>
      let aq := p - p0
      let ab := p1 - p0
      let t := aq.dot ab / ab.length_sqr
      let eq := (if t < 1/2 then p0 else p1) - p
      let endpoint_dist := eq.length ops
      let fallback : SignedDistance × ℚ :=
        (⟨fsignum (aq.cross ab) * endpoint_dist,
          |(ab.normalize ops).dot (eq.normalize ops)|⟩, t)
      if 0 < t ∧ t < 1 then
        let ortho_dist := ((ab.orthogonal false).normalize ops).dot aq
        if |ortho_dist| < endpoint_dist then (⟨ortho_dist, 0⟩, t)
        else fallback
      else fallback
  | .Quad p0 p1 p2 =>
      let qa := p0 - p
      let ab := p1 - p0
      let br := p2 - p1 - ab
      let a := br.length_sqr
      let b := 3 * ab.dot br
      let c := 2 * ab.length_sqr + qa.dot br
      let d := qa.dot ab
      let sols := solve_cubic ops a b c d
      let ep_dir0 := (Segment.Quad p0 p1 p2).direction 0
      let st0 : ℚ × ℚ :=
        (fsignum (ep_dir0.cross qa) * qa.length ops, -(qa.dot ep_dir0) / ep_dir0.length_sqr)
      let ep_dir1 := (Segment.Quad p0 p1 p2).direction 1
      let st1 : ℚ × ℚ :=
        let distance := (p2 - p).length ops
        if distance < |st0.1| then
          (fsignum (ep_dir1.cross (p2 - p)) * distance, (p - p1).dot ep_dir1 / ep_dir1.length_sqr)
        else st0
      let st : ℚ × ℚ :=
        (List.range sols.1).foldl
          (fun st i =>
            let si := sols.2.getD i 0
            if 0 < si ∧ si < 1 then
              let qe := qa + (2 * si) • ab + (si * si) • br
              let distance := qe.length ops
              if distance ≤ |st.1| then
                (fsignum ((ab + si • br).cross qe) * distance, si)
              else st
            else st)
          st1
      let dist := st.1
      let t := st.2
      if 0 ≤ t ∧ t ≤ 1 then (⟨dist, 0⟩, t)
      else if t < 0 then
        (⟨dist, |(((Segment.Quad p0 p1 p2).direction 0).normalize ops).dot (qa.normalize ops)|⟩, t)
      else
        (⟨dist, |(((Segment.Quad p0 p1 p2).direction 1).normalize ops).dot ((p2 - p).normalize ops)|⟩, t)
  | .Cubic p0 p1 p2 p3 =>
      let qa := p0 - p
      let ab := p1 - p0
      let br := p2 - p1 - ab
      let as_ := (p3 - p2) - (p2 - p1) - br
      let ep_dir0 := (Segment.Cubic p0 p1 p2 p3).direction 0
      let st0 : ℚ × ℚ :=
        (fsignum (ep_dir0.cross qa) * qa.length ops, -(qa.dot ep_dir0) / ep_dir0.length_sqr)
      let ep_dir1 := (Segment.Cubic p0 p1 p2 p3).direction 1
      let st1 : ℚ × ℚ :=
        let distance := (p3 - p).length ops
        if distance < |st0.1| then
          (fsignum (ep_dir1.cross (p3 - p)) * distance,
           (ep_dir1 - (p3 - p)).dot ep_dir1 / ep_dir1.length_sqr)
        else st0
      let st : ℚ × ℚ :=
        cubicStartParams.foldl
          (fun st t0 =>
            let qe0 := qa + (3 * t0) • ab + (3 * t0 * t0) • br + (t0 * t0 * t0) • as_
            newtonRefine ops qa ab br as_ CUBIC_SEARCH_STEPS t0 qe0 st)
          st1
      let dist := st.1
      let param := st.2
      if 0 ≤ param ∧ param ≤ 1 then (⟨dist, 0⟩, param)
      else if param < 0 then
        (⟨dist, |(((Segment.Cubic p0 p1 p2 p3).direction 0).normalize ops).dot (qa.normalize ops)|⟩, param)
      else
        (⟨dist, |(((Segment.Cubic p0 p1 p2 p3).direction 1).normalize ops).dot ((p3 - p).normalize ops)|⟩, param)

/-! Edge coloring (source: sdf/shape.rs). The u64 seed only ever shrinks,
so it is modelled as ℕ. -/

def extract_seed_bit (seed : ℕ) : ℕ × ℕ := (seed &&& 1, seed >>> 1)

def extract_seed_mod3 (seed : ℕ) : ℕ × ℕ := (seed % 3, seed / 3)

def init_color (seed : ℕ) : Color × ℕ :=
  let v := (extract_seed_mod3 seed).1
  ([CYAN, MAGENTA, YELLOW].getD v BLACK, (extract_seed_mod3 seed).2)

def switch_color (color : Color) (seed : ℕ) : Color × ℕ :=
  let bit := (extract_seed_bit seed).1
  let shifted := color <<< (1 + bit)
  ((shifted ||| shifted >>> 3) &&& WHITE, (extract_seed_bit seed).2)

def switch_color_constrained (color : Color) (seed : ℕ) (banned : Color) :
    Color × ℕ :=
  let combined := color &&& banned
  if combined = RED ∨ combined = GREEN ∨ combined = BLUE then
    (combined ^^^ WHITE, seed)
  else switch_color color seed

/-- `symmetrical_trichotomy` from the source:
`(3.0 + 2.875*(position as f32)/(n as f32 - 1.0) - 1.4375 + 0.5) as i32 - 3`
(the float literals 2.875 and 1.4375 are 23/8 and 23/16 exactly). -/
def symmetrical_trichotomy (position n : ℤ) : ℤ :=
  truncQ (3 + (23/8) * (position : ℚ) / ((n : ℚ) - 1) - 23/16 + 1/2) - 3

def is_corner (a_dir b_dir : Vec2) (threshold : ℚ) : Bool :=
  decide (a_dir.dot b_dir ≤ 0) || decide (|a_dir.cross b_dir| > threshold)

/-- Corner detection loop of `color_edges`: walks the edges with the
direction at the end of the previous edge, pushing the index of each
corner vertex. -/
def cornersOf (ops : FOps) (threshold : ℚ) (edges : List Edge) : List ℕ :=
  let prev0 := (edges.getLastD default).segment.direction 1
  ((edges.enum).foldl
    (fun (st : Vec2 × List ℕ) ie =>
      let acc :=
        if is_corner (st.1.normalize ops) ((ie.2.segment.direction 0).normalize ops) threshold
        then st.2 ++ [ie.1] else st.2
      (ie.2.segment.direction 1, acc))
    (prev0, [])).2

/-- State transition of the multiple-corners loop: `st = (spline, color, seed)`;
step `i` handles edge index `(start + i) % m` and advances the color when a
corner boundary is crossed. -/
def mcStep (corners : List ℕ) (initial_color : Color) (start m : ℕ)
    (st : ℕ × Color × ℕ) (i : ℕ) : ℕ × Color × ℕ :=
  let idx := (start + i) % m
  if st.1 + 1 < corners.length ∧ corners.getD (st.1 + 1) 0 = idx then
    let spline := st.1 + 1
    let banned := if spline = corners.length - 1 then initial_color else BLACK
    let cs := switch_color_constrained st.2.1 st.2.2 banned
    (spline, cs.1, cs.2)
  else st

/-- Iterated `mcStep`: the state before step `i` of the multiple-corners loop. -/
def mcState (corners : List ℕ) (initial_color : Color) (start m : ℕ)
    (st0 : ℕ × Color × ℕ) : ℕ → ℕ × Color × ℕ
  | 0 => st0
  | i + 1 => mcStep corners initial_color start m
      (mcState corners initial_color start m st0 i) i

/-- Processing of one contour inside `Shape::color_edges`. The threaded
state is the running `(color, seed)` pair. Empty contours are skipped. -/
def processContour (ops : FOps) (cross_threshold : ℚ) (st : Color × ℕ)
    (c : Contour) : Contour × (Color × ℕ) :=
  if c.edges.isEmpty then (c, st)
  else
    let corners := cornersOf ops cross_threshold c.edges
    if corners.isEmpty then
      -- smooth contour
      let cs := switch_color st.1 st.2
      (⟨c.edges.map (fun e => { e with color := cs.1 })⟩, cs)
    else if corners.length = 1 then
      -- teardrop shape
      let c0 := (switch_color st.1 st.2).1
      let seed1 := (switch_color st.1 st.2).2
      let c2 := (switch_color c0 seed1).1
      let seed2 := (switch_color c0 seed1).2
      let colors : List Color := [c0, WHITE, c2]
      let corner := corners.getD 0 0
      let m := c.edges.length
      if 3 ≤ m then
        let edges' := (List.range m).foldl
          (fun es i =>
            let idx := (corner + i) % m
            es.set idx ⟨(es.getD idx default).segment,
              colors.getD (1 + symmetrical_trichotomy (i : ℤ) (m : ℤ)).toNat BLACK⟩)
          c.edges
        (⟨edges'⟩, (c2, seed2))
      else if m = 2 then
        let a := (c.edges.getD corner default).segment.split_in_three
        let b := (c.edges.getD (1 - corner) default).segment.split_in_three
        let colorsPairs := colors.flatMap (fun col => [col, col])
        (⟨((a ++ b).zip colorsPairs).map (fun sc => sc.1.colored sc.2)⟩, (c2, seed2))
      else
        -- m = 1 (edges nonempty)
        let s3 := (c.edges.getD 0 default).segment.split_in_three
        (⟨(s3.zip colors).map (fun sc => sc.1.colored sc.2)⟩, (c2, seed2))
    else
      -- multiple corners
      let color := (switch_color st.1 st.2).1
      let seed := (switch_color st.1 st.2).2
      let initial_color := color
      let m := c.edges.length
      let start := corners.getD 0 0
      let res := (List.range m).foldl
        (fun (acc : List Edge × (ℕ × Color × ℕ)) i =>
          (acc.1.set ((start + i) % m)
            ⟨(acc.1.getD ((start + i) % m) default).segment,
              (mcStep corners initial_color start m acc.2 i).2.1⟩,
           mcStep corners initial_color start m acc.2 i))
        (c.edges, (0, color, seed))
      (⟨res.1⟩, (res.2.2.1, res.2.2.2))

/-- Fold `processContour` over the list of contours, threading (color, seed). -/
def processContours (ops : FOps) (cross_threshold : ℚ) :
    Color × ℕ → List Contour → List Contour × (Color × ℕ)
  | st, [] => ([], st)
  | st, c :: rest =>
      let r := processContour ops cross_threshold st c
      let r2 := processContours ops cross_threshold r.2 rest
      (r.1 :: r2.1, r2.2)

/-- `Shape::color_edges`: the corner threshold is the sine of the angle,
the color state is seeded by `init_color`. -/
def Shape.color_edges (s : Shape) (ops : FOps) (angle : ℚ) (seed : ℕ) :
    ColouredShape :=
  let cross_threshold := ops.sin angle
  ⟨(processContours ops cross_threshold (init_color seed) s.contours).1, s.bounds⟩

/-! Distance selectors and rasterizer (source: sdf/render.rs). -/

structure MultiDistance where
  r : ℚ
  g : ℚ
  b : ℚ
  a : ℚ
deriving DecidableEq

structure PerpEdgeSelector where
  min_true_distance : SignedDistance
  min_negative_perp_dist : ℚ
  min_positive_perp_dist : ℚ
  near_edge : Option Edge
  near_edge_t : ℚ
deriving DecidableEq

/-- `PerpEdgeSelector::new`: the true distance starts at `f32::MAX`, the
positive perpendicular extremum at `f32::MAX` and the negative one at
`f32::MIN`. -/
def PerpEdgeSelector.new : PerpEdgeSelector :=
  { min_true_distance := ⟨F32_MAX, 0⟩
    min_positive_perp_dist := F32_MAX
    min_negative_perp_dist := F32_MIN
    near_edge := none
    near_edge_t := 0 }

/-- `get_perpendicular_distance`: returns whether `distance` was modified
together with its (possibly new) value. -/
def get_perpendicular_distance (distance : ℚ) (ep edge_dir : Vec2) : Bool × ℚ :=
  let ts := ep.dot edge_dir
  if 0 < ts then
    let perp_distance := ep.cross edge_dir
    if |perp_distance| < |distance| then (true, perp_distance)
    else (false, distance)
  else (false, distance)

def PerpEdgeSelector.add_edge_true_distance (s : PerpEdgeSelector) (edge : Edge)
    (dist : SignedDistance) (t : ℚ) : PerpEdgeSelector :=
  if dist.ltB s.min_true_distance then
    { s with min_true_distance := dist, near_edge := some edge, near_edge_t := t }
  else s

def PerpEdgeSelector.add_edge_perp_distance (s : PerpEdgeSelector) (dist : ℚ) :
    PerpEdgeSelector :=
  if dist ≤ 0 ∧ s.min_negative_perp_dist < dist then
    { s with min_negative_perp_dist := dist }
  else if 0 ≤ dist ∧ dist < s.min_positive_perp_dist then
    { s with min_positive_perp_dist := dist }
  else s

def PerpEdgeSelector.add_edge (s : PerpEdgeSelector) (ops : FOps) (point : Vec2)
    (prev_edge edge next_edge : Edge) : PerpEdgeSelector :=
  let dt := edge.segment.signed_distance ops point
  let distance := dt.1
  let t := dt.2
  let s := s.add_edge_true_distance edge distance t
  let ap := point - edge.segment.sample 0
  let bp := point - edge.segment.sample 1
  let a_dir := (edge.segment.direction 0).normalize ops
  let b_dir := (edge.segment.direction 1).normalize ops
  let prev_dir := prev_edge.segment.direction 1
  let next_dir := next_edge.segment.direction 0
  let add := ap.dot ((prev_dir + a_dir).normalize ops)
  let bdd := -(bp.dot ((b_dir + next_dir).normalize ops))
  let s :=
    if 0 < add then
      let mp := get_perpendicular_distance distance.dist ap (-a_dir)
      if mp.1 then s.add_edge_perp_distance (-mp.2) else s
    else s
  if 0 < bdd then
    let mp := get_perpendicular_distance distance.dist bp b_dir
    if mp.1 then s.add_edge_perp_distance mp.2 else s
  else s

/-- `PerpEdgeSelector::distance`: pick the perpendicular extremum on the
side given by the sign of the minimum true distance. (The `near_edge`
refinement in the source is commented out.) -/
def PerpEdgeSelector.distance (s : PerpEdgeSelector) (_point : Vec2) : ℚ :=
  if s.min_true_distance.dist < 0 then s.min_negative_perp_dist
  else s.min_positive_perp_dist

def PerpEdgeSelector.true_distance (s : PerpEdgeSelector) : ℚ :=
  s.min_true_distance.dist

structure MTEdgeSelector where
  r : PerpEdgeSelector
  g : PerpEdgeSelector
  b : PerpEdgeSelector
deriving DecidableEq

def MTEdgeSelector.new : MTEdgeSelector :=
  ⟨PerpEdgeSelector.new, PerpEdgeSelector.new, PerpEdgeSelector.new⟩

/-- `MTEdgeSelector::distance`: the r, g, b perpendicular distances plus the
true distance in the alpha channel. The alpha channel is
`self.r.true_distance().min(self.g.true_distance()).min(self.b.true_distance())`,
a minimum of the three signed values. -/
def MTEdgeSelector.distance (s : MTEdgeSelector) (point : Vec2) : MultiDistance :=
  { r := s.r.distance point
    g := s.g.distance point
    b := s.b.distance point
    a := min (min s.r.true_distance s.g.true_distance) s.b.true_distance }

/-- `one_shot_distance`: runs a single shared `PerpEdgeSelector` over every
edge of every contour and copies its resolved distance into r, g and b,
with the alpha channel set to the constant `1.0`. -/
def one_shot_distance (ops : FOps) (shape : ColouredShape) (p : Vec2) :
    MultiDistance :=
  let selector := shape.contours.foldl
    (fun sel c =>
      if c.edges.isEmpty then sel
      else
        let len := c.edges.length
        let prev0 := if 2 ≤ len then c.edges.getD (len - 2) default
                     else c.edges.getD 0 default
        let cur0 := c.edges.getLastD default
        (c.edges.foldl
          (fun (st : PerpEdgeSelector × Edge × Edge) next_edge =>
            (st.1.add_edge ops p st.2.1 st.2.2 next_edge, st.2.2, next_edge))
          (sel, prev0, cur0)).1)
    PerpEdgeSelector.new
  let d := selector.distance p
  { r := d, g := d, b := d, a := 1 }

/-- One output pixel value, 4 channels. -/
structure Pixel where
  r : ℚ
  g : ℚ
  b : ℚ
  a : ℚ
deriving DecidableEq

/-- Pixel-to-outline-space map of `generate_mtsdf`. -/
def image_pixel_to_face (bounds : Rect) (width height : ℕ) (x y : ℕ) : Vec2 :=
  let glyph_width := bounds.x_max - bounds.x_min
  let glyph_height := bounds.y_max - bounds.y_min
  vec2 (bounds.x_min + ((x : ℚ) / (width : ℚ)) * glyph_width + 1/2)
       (bounds.y_min + (1 - (y : ℚ) / (height : ℚ)) * glyph_height + 1/2)

/-- Outline-space-to-pixel map of `generate_mtsdf` (clamped, truncated). -/
def face_pixel_to_image (bounds : Rect) (width height : ℕ) (p : Vec2) : ℕ × ℕ :=
  let glyph_width := bounds.x_max - bounds.x_min
  let glyph_height := bounds.y_max - bounds.y_min
  let x := (width : ℚ) * (((p.x - 1/2) - bounds.x_min) / glyph_width)
  let y := (height : ℚ) * (1 - ((p.y - 1/2) - bounds.y_min) / glyph_height)
  ((truncQ (clampQ x 0 ((width : ℚ) - 1))).toNat,
   (truncQ (clampQ y 0 ((height : ℚ) - 1))).toNat)

/-- `ColouredShape::generate_mtsdf`, modelled as the ordered trace of
`put_pixel` calls it performs: first the per-pixel distance writes (row
major, `d.r/100.0 + 0.5` etc. with alpha `1.0`), then the outline overlay
writes that re-color pixels along each edge with the edge's color mask. -/
def ColouredShape.generate_mtsdf (s : ColouredShape)
    (ops : FOps) (offset_x offset_y width height : ℕ) :
    List ((ℕ × ℕ) × Pixel) :=
  let pixelWrites :=
    (List.range height).flatMap (fun y =>
      (List.range width).map (fun x =>
        let p := image_pixel_to_face s.bounds width height x y
        let d := one_shot_distance ops s p
        ((offset_x + x, offset_y + y),
         ⟨d.r / 100 + 1/2, d.g / 100 + 1/2, d.b / 100 + 1/2, 1⟩)))
  let overlayWrites :=
    s.contours.flatMap (fun c =>
      c.edges.flatMap (fun e =>
        (List.range 51).map (fun ti =>
          let t := (ti : ℚ) / 50
          let p := e.segment.sample t
          let xy := face_pixel_to_image s.bounds width height p
          ((offset_x + xy.1, offset_y + xy.2),
           ⟨if e.color.containsC RED then 1 else 0,
            if e.color.containsC GREEN then 1 else 0,
            if e.color.containsC BLUE then 1 else 0, 1⟩))))
  pixelWrites ++ overlayWrites

/-- Modelled from the spec (for comparison only): the normalization the
spec claims for each output channel, `(distance / units_per_em) / 2 + 0.5`. -/
def specNormalize (units_per_em distance : ℚ) : ℚ :=
  distance / units_per_em / 2 + 1/2

/-! Concrete instances used by witnesses and counterexamples. -/

/-- Rational approximation of the square root on the finitely many values
the concrete evaluations below probe. It is exact on the perfect squares
1, 4, 100 and accurate to within 2^-11 on the rest
(`20582/2048 ≈ √101`, `21528/2048 ≈ √(221/2)`, `1448/2048 ≈ √(1/2)`);
every concrete evaluation below only uses these values in comparisons
whose margins are far wider than the approximation error, so the branches
taken agree with the real `f32` execution. -/
def qsqrt (q : ℚ) : ℚ :=
  if q = 1 then 1
  else if q = 4 then 2
  else if q = 100 then 10
  else if q = 101 then 20582 / 2048
  else if q = 221/2 then 21528 / 2048
  else if q = 1/2 then 1448 / 2048
  else 0

/-- Concrete operation record for evaluations: a real square-root
approximation; the trigonometric operations are never hit by the concrete
inputs below (they only involve `Line` segments), except `sin`, which only
feeds the corner threshold and is pinned to 1. -/
def qOps : FOps :=
  { sqrt := qsqrt, sin := fun _ => 1, cos := fun _ => 0,
    acos := fun _ => 0, cbrt := fun _ => 0 }

lemma qsqrt_nonneg (q : ℚ) : 0 ≤ qsqrt q := by
  unfold qsqrt
  split_ifs <;> norm_num


/-- The four `Line` edges of an axis-aligned 10×10 square (counter-clockwise). -/
def sqB : Edge := (Segment.Line ⟨0, 0⟩ ⟨10, 0⟩).white_edge

def sqR : Edge := (Segment.Line ⟨10, 0⟩ ⟨10, 10⟩).white_edge

def sqT : Edge := (Segment.Line ⟨10, 10⟩ ⟨0, 10⟩).white_edge

def sqL : Edge := (Segment.Line ⟨0, 10⟩ ⟨0, 0⟩).white_edge

/-- Axis-aligned 10×10 square as four `Line` edges (counter-clockwise). -/
def sqContour : Contour := ⟨[sqB, sqR, sqT, sqL]⟩

/-- The probe point (10.5, 10.5): diagonally outside the square's top-right
corner, at distance 1/2 beyond both the top and the right edge. -/
def pQ : Vec2 := ⟨21/2, 21/2⟩

/-- Coloured shape for the rasterizer counterexample: the square contour
with bounds chosen so that the single pixel of a 1×1 render maps to the
outline point (10.5, 10.5), diagonally outside the square's top-right
corner at distance 1/2 from both adjacent edges. -/
def sqShape : ColouredShape :=
  ⟨[sqContour], ⟨10, 9, 11, 10⟩⟩

/-! Basic facts about the sign and ordering helpers. -/

lemma fsignum_cases (q : ℚ) : fsignum q = -1 ∨ fsignum q = 1 := by
  unfold fsignum; split <;> simp

lemma abs_fsignum_mul (x y : ℚ) : |fsignum x * y| = |y| := by
  rcases fsignum_cases x with h | h <;> rw [h] <;> simp

/-- C10: for all inputs, `solve_quadratic` reports at most 2 roots and
`solve_cubic` at most 3; the root arrays have fixed lengths 2 and 3 and
every slot at an index at or past the reported count is `0.0`, so the
root loop in the quadratic arm of `signed_distance`, which reads
`solutions[i]` only for `i` below the reported count, stays in bounds. -/
lemma solve_quadratic_spec (ops : FOps) (a b c : ℚ) :
    (solve_quadratic ops a b c).1 ≤ 2 ∧
    (solve_quadratic ops a b c).2.length = 2 ∧
    (solve_quadratic ops a b c).2.drop (solve_quadratic ops a b c).1 =
      List.replicate (2 - (solve_quadratic ops a b c).1) 0 := by
  unfold solve_quadratic
  by_cases h1 : a = 0
  · by_cases h2 : b = 0 <;> simp [h1, h2]
  · by_cases h3 : b * b - 4 * a * c < 0
    · simp [h1, h3]
    · by_cases h4 : b * b - 4 * a * c = 0 <;> simp [h1, h3, h4]

lemma solve_cubic_spec (ops : FOps) (a b c d : ℚ) :
    (solve_cubic ops a b c d).1 ≤ 3 ∧
    (solve_cubic ops a b c d).2.length = 3 ∧
    (solve_cubic ops a b c d).2.drop (solve_cubic ops a b c d).1 =
      List.replicate (3 - (solve_cubic ops a b c d).1) 0 := by
  have hq := solve_quadratic_spec ops b c d
  have hfb : ((solve_quadratic ops b c d).1,
      [(solve_quadratic ops b c d).2.getD 0 0, (solve_quadratic ops b c d).2.getD 1 0,
        (0 : ℚ)]).1 ≤ 3 ∧
      ((solve_quadratic ops b c d).1,
      [(solve_quadratic ops b c d).2.getD 0 0, (solve_quadratic ops b c d).2.getD 1 0,
        (0 : ℚ)]).2.length = 3 ∧
      ((solve_quadratic ops b c d).1,
      [(solve_quadratic ops b c d).2.getD 0 0, (solve_quadratic ops b c d).2.getD 1 0,
        (0 : ℚ)]).2.drop ((solve_quadratic ops b c d).1,
      [(solve_quadratic ops b c d).2.getD 0 0, (solve_quadratic ops b c d).2.getD 1 0,
        (0 : ℚ)]).1 = List.replicate (3 - ((solve_quadratic ops b c d).1,
      [(solve_quadratic ops b c d).2.getD 0 0, (solve_quadratic ops b c d).2.getD 1 0,
        (0 : ℚ)]).1) 0 := by
    rcases hsol : solve_quadratic ops b c d with ⟨n, ts⟩
    rw [hsol] at hq
    obtain ⟨hn, hlen, hdrop⟩ := hq
    simp only at hn hlen hdrop ⊢
    rcases ts with _ | ⟨x, _ | ⟨y, _ | ⟨z, ts⟩⟩⟩ <;> simp_all
    interval_cases n <;> simp_all
  unfold solve_cubic
  by_cases h1 : a ≠ 0 ∧ |b / a| < 1000000
  · rw [if_pos h1]
    by_cases h2 : (1 / 54 * (a * (2 * (a * a) - 9 * b) + 27 * c)) *
        (1 / 54 * (a * (2 * (a * a) - 9 * b) + 27 * c)) <
        (1 / 9 * (a * a - 3 * b)) * (1 / 9 * (a * a - 3 * b)) * (1 / 9 * (a * a - 3 * b))
    · simp only [h2, if_true]
      simp
    · simp only [h2, if_false]
      split_ifs <;> simp
  · rw [if_neg h1]
    exact hfb

theorem C10_root_counts (ops : FOps) (a b c d : ℚ) :
    (solve_quadratic ops a b c).1 ≤ 2 ∧
    (solve_quadratic ops a b c).2.length = 2 ∧
    (solve_quadratic ops a b c).2.drop (solve_quadratic ops a b c).1 =
      List.replicate (2 - (solve_quadratic ops a b c).1) 0 ∧
    (solve_cubic ops a b c d).1 ≤ 3 ∧
    (solve_cubic ops a b c d).2.length = 3 ∧
    (solve_cubic ops a b c d).2.drop (solve_cubic ops a b c d).1 =
      List.replicate (3 - (solve_cubic ops a b c d).1) 0 := by
  obtain ⟨h1, h2, h3⟩ := solve_quadratic_spec ops a b c
  obtain ⟨h4, h5, h6⟩ := solve_cubic_spec ops a b c d
  exact ⟨h1, h2, h3, h4, h5, h6⟩

lemma cmpQ_lt (x y : ℚ) (h : x < y) : cmpQ x y = .lt := by
  unfold cmpQ; rw [if_pos h]

lemma cmpQ_eq (x y : ℚ) (h : x = y) : cmpQ x y = .eq := by
  subst h; unfold cmpQ; rw [if_neg (lt_irrefl x), if_pos rfl]

lemma cmpQ_gt (x y : ℚ) (h : y < x) : cmpQ x y = .gt := by
  unfold cmpQ
  rw [if_neg (not_lt.2 (le_of_lt h)), if_neg (ne_of_gt h)]

/-- Characterization of the derived strict order on `SignedDistance`. -/
lemma ltB_iff (a b : SignedDistance) :
    a.ltB b = true ↔
      (|a.dist| < |b.dist| ∨ (|a.dist| = |b.dist| ∧ a.dot < b.dot)) := by
  rw [SignedDistance.ltB, decide_eq_true_iff, SignedDistance.partial_cmp]
  rcases lt_trichotomy |a.dist| |b.dist| with h | h | h
  · rw [cmpQ_lt _ _ h]
    exact ⟨fun _ => Or.inl h, fun _ => rfl⟩
  · rw [cmpQ_eq _ _ h]
    show cmpQ a.dot b.dot = Ordering.lt ↔ _
    constructor
    · intro hc
      refine Or.inr ⟨h, ?_⟩
      rcases lt_trichotomy a.dot b.dot with h2 | h2 | h2
      · exact h2
      · rw [cmpQ_eq _ _ h2] at hc; exact absurd hc (by simp)
      · rw [cmpQ_gt _ _ h2] at hc; exact absurd hc (by simp)
    · rintro (h2 | ⟨_, h2⟩)
      · exact absurd h (ne_of_lt h2)
      · exact cmpQ_lt _ _ h2
  · rw [cmpQ_gt _ _ h]
    show Ordering.gt = Ordering.lt ↔ _
    constructor
    · intro hc; exact absurd hc (by simp)
    · rintro (h2 | ⟨h2, _⟩)
      · exact absurd h (not_lt.2 (le_of_lt h2))
      · exact absurd h (by rw [h2]; exact lt_irrefl _)

/-- C6 (amended): the order on `SignedDistance` candidates compares
`|dist|` first and breaks exact ties by the raw `dot` comparison, the
candidate with the SMALLER dot being the smaller (preferred) one; the
order is asymmetric. -/
theorem C6_order (a b : SignedDistance) :
    (a.ltB b = true ↔
      (|a.dist| < |b.dist| ∨ (|a.dist| = |b.dist| ∧ a.dot < b.dot))) ∧
    (a.ltB b = true → b.ltB a = false) ∧
    (|a.dist| = |b.dist| → (a.ltB b = true ↔ a.dot < b.dot)) := by
  refine ⟨ltB_iff a b, ?_, ?_⟩
  · intro h
    rcases (ltB_iff a b).1 h with h1 | ⟨h1, h2⟩ <;>
      · rw [Bool.eq_false_iff]
        intro hc
        rcases (ltB_iff b a).1 hc with h3 | ⟨h3, h4⟩ <;> linarith
  · intro he
    rw [ltB_iff]
    constructor
    · rintro (h | ⟨_, h⟩)
      · linarith
      · exact h
    · intro h
      exact Or.inr ⟨he, h⟩

/-- C6 counterexample: two candidates of equal distance magnitude where
the claim prefers the higher-dot candidate (dot 3/4) but the code's order
makes the LOWER-dot candidate (dot 1/4) the smaller, preferred one. -/
theorem C6_counterexample :
    SignedDistance.ltB ⟨-1, 1/4⟩ ⟨1, 3/4⟩ = true ∧
    SignedDistance.ltB ⟨1, 3/4⟩ ⟨-1, 1/4⟩ = false := by
  with_unfolding_all decide

/-- C6 witness: the tie-breaking characterization instantiated at two
candidates of equal magnitude 2. -/
theorem C6_order_witness :
    SignedDistance.ltB ⟨2, 0⟩ ⟨-2, 1⟩ = true ↔ (0 : ℚ) < 1 :=
  (C6_order ⟨2, 0⟩ ⟨-2, 1⟩).2.2 (by norm_num)

lemma truncQ_one : truncQ 1 = 1 := by norm_num [truncQ]

lemma truncQ_neg_one : truncQ (-1) = -1 := by norm_num [truncQ]

/-- C4: `winding()` of every nonempty contour is exactly +1 or -1 (in
particular this needs no simplicity hypothesis: `f32::signum` is `1.0` on
`+0.0`, so a nonzero value is returned for every nonempty contour), and
`winding()` returns 0 exactly for a contour with no edges. -/
theorem C4_winding (c : Contour) :
    (c.edges ≠ [] → c.winding = 1 ∨ c.winding = -1) ∧
    (c.winding = 0 ↔ c.edges = []) := by
  unfold Contour.winding
  by_cases h : c.edges.length = 0
  · have he : c.edges = [] := List.length_eq_zero.1 h
    simp [h, he]
  · have he : ¬(c.edges = []) := by
      intro hc; exact h (by simp [hc])
    have hs : truncQ (fsignum c.windingTotal) = 1 ∨
        truncQ (fsignum c.windingTotal) = -1 := by
      rcases fsignum_cases c.windingTotal with hq | hq <;> rw [hq]
      · exact Or.inr truncQ_neg_one
      · exact Or.inl truncQ_one
    rw [if_neg h]
    refine ⟨fun _ => hs, ?_⟩
    constructor
    · intro h0
      rcases hs with h1 | h1 <;> omega
    · intro hc; exact absurd hc he

/-- C4 witness: a concrete one-edge contour. -/
theorem C4_winding_witness :
    (Contour.mk [(Segment.Line ⟨0, 0⟩ ⟨1, 0⟩).white_edge]).winding = 1 ∨
    (Contour.mk [(Segment.Line ⟨0, 0⟩ ⟨1, 0⟩).white_edge]).winding = -1 :=
  (C4_winding _).1 (by simp)

/-- C2 (amended): `MTEdgeSelector::distance` puts into the alpha channel
the minimum of the three per-channel SIGNED true distances (not of their
magnitudes); that value is at most the minimum magnitude, with equality
when all three true distances are nonnegative. The `one_shot_distance`
evaluator used by the rasterizer instead stores the constant `1.0` in
alpha. -/
theorem C2_alpha :
    (∀ (s : MTEdgeSelector) (p : Vec2),
        (s.distance p).a =
          min (min s.r.true_distance s.g.true_distance) s.b.true_distance) ∧
    (∀ (s : MTEdgeSelector) (p : Vec2),
        (s.distance p).a ≤
          min (min |s.r.true_distance| |s.g.true_distance|) |s.b.true_distance|) ∧
    (∀ (s : MTEdgeSelector) (p : Vec2),
        0 ≤ s.r.true_distance → 0 ≤ s.g.true_distance → 0 ≤ s.b.true_distance →
        (s.distance p).a =
          min (min |s.r.true_distance| |s.g.true_distance|) |s.b.true_distance|) ∧
    (∀ (ops : FOps) (sh : ColouredShape) (p : Vec2),
        (one_shot_distance ops sh p).a = 1) := by
  refine ⟨fun s p => rfl, fun s p => ?_, fun s p hr hg hb => ?_, fun ops sh p => rfl⟩
  · exact min_le_min (min_le_min (le_abs_self _) (le_abs_self _)) (le_abs_self _)
  · show min (min s.r.true_distance s.g.true_distance) s.b.true_distance = _
    rw [abs_of_nonneg hr, abs_of_nonneg hg, abs_of_nonneg hb]

/-- A selector state with the given minimum true distance (the remaining
fields as after `PerpEdgeSelector::new`). -/
def mkSel (d : ℚ) : PerpEdgeSelector :=
  { PerpEdgeSelector.new with min_true_distance := ⟨d, 0⟩ }

/-- C2 counterexample: a selector state whose channel true distances are
-5, 1, 2. The evaluator returns alpha -5 (minimum signed value), while
the claim's minimum of magnitudes is 1. -/
theorem C2_counterexample :
    ((MTEdgeSelector.mk (mkSel (-5)) (mkSel 1) (mkSel 2)).distance ⟨0, 0⟩).a = -5 ∧
    min (min |(-5 : ℚ)| |(1 : ℚ)|) |(2 : ℚ)| = 1 ∧
    ((-5 : ℚ)) ≠ 1 := by
  refine ⟨?_, by norm_num, by norm_num⟩
  show min (min (-5 : ℚ) 1) 2 = -5
  norm_num

/-- C2 witness: with all three channel true distances nonnegative
(1, 2, 3) the alpha channel does equal the minimum magnitude. -/
theorem C2_alpha_witness :
    ((MTEdgeSelector.mk (mkSel 1) (mkSel 2) (mkSel 3)).distance ⟨0, 0⟩).a =
      min (min |(1 : ℚ)| |(2 : ℚ)|) |(3 : ℚ)| :=
  C2_alpha.2.2.1 (MTEdgeSelector.mk (mkSel 1) (mkSel 2) (mkSel 3)) ⟨0, 0⟩
    (by norm_num [mkSel, PerpEdgeSelector.true_distance])
    (by norm_num [mkSel, PerpEdgeSelector.true_distance])
    (by norm_num [mkSel, PerpEdgeSelector.true_distance])

/-- C5 (amended): the cubic arm's iterative search seeds exactly FIVE
starting parameters, `i/4` for `i = 0..=4`, evenly spaced across [0, 1]
endpoints included (the source loop is `0..=CUBIC_SEARCH_STARTS` with
`CUBIC_SEARCH_STARTS = 4`); each seed runs at most
`CUBIC_SEARCH_STEPS = 4` Newton updates and stops as soon as the updated
parameter leaves the open interval (0, 1) — in particular whenever it
escapes [0, 1]; the tracked minimum distance magnitude never increases
during refinement (endpoint candidates seed the initial state). -/
theorem C5_cubic_search (ops : FOps) (hops : ∀ q, 0 ≤ ops.sqrt q) :
    cubicStartParams = [0, 1/4, 1/2, 3/4, 1] ∧
    CUBIC_SEARCH_STEPS = 4 ∧
    (∀ qa ab br as_ fuel t qe st,
        (newtonRefineT ops qa ab br as_ fuel t qe st).2 ≤ fuel ∧
        (newtonRefineT ops qa ab br as_ fuel t qe st).1 =
          newtonRefine ops qa ab br as_ fuel t qe st) ∧
    (∀ qa ab br as_ fuel t qe st,
        |(newtonRefine ops qa ab br as_ fuel t qe st).1| ≤ |st.1|) := by
  refine ⟨by with_unfolding_all decide, rfl, ?_, ?_⟩
  · intro qa ab br as_ fuel
    induction fuel with
    | zero => intro t qe st; exact ⟨Nat.le_refl 0, rfl⟩
    | succ n ih =>
        intro t qe st
        rw [newtonRefineT, newtonRefine]
        split
        · exact ⟨by omega, rfl⟩
        · dsimp only
          exact ⟨Nat.succ_le_succ (ih _ _ _).1, (ih _ _ _).2⟩
  · intro qa ab br as_ fuel
    induction fuel with
    | zero => intro t qe st; exact le_refl _
    | succ n ih =>
        intro t qe st
        rw [newtonRefine]
        split
        · exact le_refl _
        · refine le_trans (ih _ _ _) ?_
          split
          · rename_i hlt
            dsimp only
            rw [abs_fsignum_mul, abs_of_nonneg (hops _)]
            exact le_of_lt hlt
          · exact le_refl _

/-- C5 counterexample: the list of seeded starting parameters has FIVE
entries, not the four the claim states. -/
theorem C5_counterexample :
    cubicStartParams.length = 5 ∧ cubicStartParams.length ≠ 4 := by decide

/-- C5 witness at concrete inputs (the sqrt nonnegativity side condition is
discharged by `qsqrt_nonneg`). -/
theorem C5_cubic_search_witness :
    |(newtonRefine qOps ⟨1, 1⟩ ⟨0, 1⟩ ⟨1, 0⟩ ⟨0, 0⟩ 4 (1/2) ⟨1, 1⟩ (10, 1/2)).1|
      ≤ |((10 : ℚ), (1/2 : ℚ)).1| :=
  (C5_cubic_search qOps qsqrt_nonneg).2.2.2 ⟨1, 1⟩ ⟨0, 1⟩ ⟨1, 0⟩ ⟨0, 0⟩ 4 (1/2) ⟨1, 1⟩ (10, 1/2)

/-- C1 (amended): every pixel emitted by the distance loop of
`generate_mtsdf` carries, in each of the R, G, B channels, the raw
channel distance divided by the hard-coded constant 100, plus 0.5, and the
constant 1.0 in alpha; the function receives no font and no
`units_per_em` value at all. -/
theorem C1_pixel_formula (ops : FOps) (s : ColouredShape) (ox oy w h x y : ℕ)
    (hx : x < w) (hy : y < h) :
    ((ox + x, oy + y),
     (⟨(one_shot_distance ops s (image_pixel_to_face s.bounds w h x y)).r / 100 + 1/2,
       (one_shot_distance ops s (image_pixel_to_face s.bounds w h x y)).g / 100 + 1/2,
       (one_shot_distance ops s (image_pixel_to_face s.bounds w h x y)).b / 100 + 1/2,
       1⟩ : Pixel)) ∈ s.generate_mtsdf ops ox oy w h := by
  unfold ColouredShape.generate_mtsdf
  refine List.mem_append_left _ ?_
  rw [List.mem_flatMap]
  refine ⟨y, List.mem_range.2 hy, ?_⟩
  rw [List.mem_map]
  exact ⟨x, List.mem_range.2 hx, rfl⟩

/-- C1 witness: the formula instantiated at the concrete square shape. -/
theorem C1_pixel_formula_witness :
    ((0 + 0, 0 + 0),
     (⟨(one_shot_distance qOps sqShape (image_pixel_to_face sqShape.bounds 1 1 0 0)).r / 100 + 1/2,
       (one_shot_distance qOps sqShape (image_pixel_to_face sqShape.bounds 1 1 0 0)).g / 100 + 1/2,
       (one_shot_distance qOps sqShape (image_pixel_to_face sqShape.bounds 1 1 0 0)).b / 100 + 1/2,
       1⟩ : Pixel)) ∈ sqShape.generate_mtsdf qOps 0 0 1 1 :=
  C1_pixel_formula qOps sqShape 0 0 1 1 0 0 (by decide) (by decide)

/-- Selector state after feeding the left edge of the square (and, by the
tie-breaking rule, still after the bottom edge): nearest point is the top
end of the left edge at distance -sqrt(221/2). -/
def sqS1 : PerpEdgeSelector :=
  { min_true_distance := ⟨-2691/256, 128/2691⟩
    min_negative_perp_dist := F32_MIN
    min_positive_perp_dist := F32_MAX
    near_edge := some sqL
    near_edge_t := -1/20 }

/-- Selector state after additionally feeding the right edge (and, by the
tie-breaking rule, still after the top edge): nearest point is the square's
top-right corner at distance sqrt(1/2), with positive perpendicular
extremum 1/2 contributed past the edge endpoint. -/
def sqS3 : PerpEdgeSelector :=
  { min_true_distance := ⟨181/256, 128/181⟩
    min_negative_perp_dist := F32_MIN
    min_positive_perp_dist := 1/2
    near_edge := some sqR
    near_edge_t := 21/20 }

lemma sq_step1 : PerpEdgeSelector.new.add_edge qOps pQ sqT sqL sqB = sqS1 := by
  norm_num [PerpEdgeSelector.add_edge, PerpEdgeSelector.add_edge_true_distance,
    PerpEdgeSelector.add_edge_perp_distance, get_perpendicular_distance,
    PerpEdgeSelector.new, F32_MAX, F32_MIN, sqS1, sqS3,
    SignedDistance.ltB, SignedDistance.partial_cmp, cmpQ, Ordering.then,
    ordering_eq_ne_lt, ordering_gt_ne_lt, ordering_lt_eq_lt,
    Segment.signed_distance, Segment.sample, Segment.direction,
    sqL, sqB, sqT, sqR, Segment.white_edge, pQ, qOps, qsqrt,
    Vec2.sub_def, Vec2.add_def, Vec2.smul_def, Vec2.neg_def, Vec2.dot, Vec2.cross,
    Vec2.length_sqr, Vec2.length, Vec2.normalize, Vec2.orthogonal, vec2, fsignum,
    Vec2.lerp, lerpQ, abs_of_nonneg, abs_of_nonpos,
    PerpEdgeSelector.mk.injEq, SignedDistance.mk.injEq,
    Edge.mk.injEq, Option.some.injEq]

lemma sq_step2 : sqS1.add_edge qOps pQ sqL sqB sqR = sqS1 := by
  norm_num [PerpEdgeSelector.add_edge, PerpEdgeSelector.add_edge_true_distance,
    PerpEdgeSelector.add_edge_perp_distance, get_perpendicular_distance,
    PerpEdgeSelector.new, F32_MAX, F32_MIN, sqS1, sqS3,
    SignedDistance.ltB, SignedDistance.partial_cmp, cmpQ, Ordering.then,
    ordering_eq_ne_lt, ordering_gt_ne_lt, ordering_lt_eq_lt,
    Segment.signed_distance, Segment.sample, Segment.direction,
    sqL, sqB, sqT, sqR, Segment.white_edge, pQ, qOps, qsqrt,
    Vec2.sub_def, Vec2.add_def, Vec2.smul_def, Vec2.neg_def, Vec2.dot, Vec2.cross,
    Vec2.length_sqr, Vec2.length, Vec2.normalize, Vec2.orthogonal, vec2, fsignum,
    Vec2.lerp, lerpQ, abs_of_nonneg, abs_of_nonpos,
    PerpEdgeSelector.mk.injEq, SignedDistance.mk.injEq,
    Edge.mk.injEq, Option.some.injEq]

lemma sq_step3 : sqS1.add_edge qOps pQ sqB sqR sqT = sqS3 := by
  norm_num [PerpEdgeSelector.add_edge, PerpEdgeSelector.add_edge_true_distance,
    PerpEdgeSelector.add_edge_perp_distance, get_perpendicular_distance,
    PerpEdgeSelector.new, F32_MAX, F32_MIN, sqS1, sqS3,
    SignedDistance.ltB, SignedDistance.partial_cmp, cmpQ, Ordering.then,
    ordering_eq_ne_lt, ordering_gt_ne_lt, ordering_lt_eq_lt,
    Segment.signed_distance, Segment.sample, Segment.direction,
    sqL, sqB, sqT, sqR, Segment.white_edge, pQ, qOps, qsqrt,
    Vec2.sub_def, Vec2.add_def, Vec2.smul_def, Vec2.neg_def, Vec2.dot, Vec2.cross,
    Vec2.length_sqr, Vec2.length, Vec2.normalize, Vec2.orthogonal, vec2, fsignum,
    Vec2.lerp, lerpQ, abs_of_nonneg, abs_of_nonpos,
    PerpEdgeSelector.mk.injEq, SignedDistance.mk.injEq,
    Edge.mk.injEq, Option.some.injEq]

lemma sq_step4 : sqS3.add_edge qOps pQ sqR sqT sqL = sqS3 := by
  norm_num [PerpEdgeSelector.add_edge, PerpEdgeSelector.add_edge_true_distance,
    PerpEdgeSelector.add_edge_perp_distance, get_perpendicular_distance,
    PerpEdgeSelector.new, F32_MAX, F32_MIN, sqS1, sqS3,
    SignedDistance.ltB, SignedDistance.partial_cmp, cmpQ, Ordering.then,
    ordering_eq_ne_lt, ordering_gt_ne_lt, ordering_lt_eq_lt,
    Segment.signed_distance, Segment.sample, Segment.direction,
    sqL, sqB, sqT, sqR, Segment.white_edge, pQ, qOps, qsqrt,
    Vec2.sub_def, Vec2.add_def, Vec2.smul_def, Vec2.neg_def, Vec2.dot, Vec2.cross,
    Vec2.length_sqr, Vec2.length, Vec2.normalize, Vec2.orthogonal, vec2, fsignum,
    Vec2.lerp, lerpQ, abs_of_nonneg, abs_of_nonpos,
    PerpEdgeSelector.mk.injEq, SignedDistance.mk.injEq,
    Edge.mk.injEq, Option.some.injEq]

lemma sq_one_shot : one_shot_distance qOps sqShape pQ = ⟨1/2, 1/2, 1/2, 1⟩ := by
  unfold one_shot_distance sqShape sqContour
  norm_num [List.foldl_cons, List.foldl_nil, sq_step1, sq_step2, sq_step3, sq_step4]
  norm_num [sqS3, PerpEdgeSelector.distance, List.cons_ne_nil]

lemma sq_pixel_point : image_pixel_to_face sqShape.bounds 1 1 0 0 = pQ := by
  unfold image_pixel_to_face sqShape pQ vec2
  norm_num

/-- C1 counterexample: rendering the concrete square shape into a single
pixel emits the value 101/200 per colour channel (raw distance 1/2,
normalized as `1/2 / 100 + 1/2`), which differs from the claim's
`(distance / units_per_em) / 2 + 0.5` for a font of 1000 units per em. -/
theorem C1_counterexample :
    (sqShape.generate_mtsdf qOps 0 0 1 1).headD ((0, 0), ⟨0, 0, 0, 0⟩)
      = ((0, 0), ⟨101/200, 101/200, 101/200, 1⟩) ∧
    (one_shot_distance qOps sqShape (image_pixel_to_face sqShape.bounds 1 1 0 0)).r = 1/2 ∧
    (101/200 : ℚ) ≠ specNormalize 1000 (1/2) := by
  refine ⟨?_, by rw [sq_pixel_point, sq_one_shot], by norm_num [specNormalize]⟩
  unfold ColouredShape.generate_mtsdf
  rw [show List.range 1 = [0] from rfl]
  simp only [List.flatMap_cons, List.flatMap_nil, List.map_cons, List.map_nil,
    List.append_nil, sq_pixel_point, sq_one_shot, List.singleton_append,
    List.headD_cons]
  norm_num

/-! The color-state invariant: the running color is always one of the three
two-channel hues CYAN, MAGENTA, YELLOW. -/

/-- The color is one of the two-channel hues. -/
def isCMY (c : Color) : Prop := c = CYAN ∨ c = MAGENTA ∨ c = YELLOW

lemma switch_color_fst (c : Color) (s : ℕ) :
    (switch_color c s).1 =
      ((c <<< (1 + s % 2)) ||| (c <<< (1 + s % 2)) >>> 3) &&& 7 := by
  unfold switch_color extract_seed_bit
  rw [Nat.and_one_is_mod]
  rfl

/-- `switch_color` keeps the color inside the CMY set and always changes it. -/
lemma switch_color_cmy (c : Color) (s : ℕ) (h : isCMY c) :
    isCMY (switch_color c s).1 ∧ (switch_color c s).1 ≠ c := by
  have hb := Nat.mod_two_eq_zero_or_one s
  rcases h with h | h | h <;> subst h <;>
    rcases hb with hb | hb <;>
      · rw [isCMY, switch_color_fst, hb]
        refine ⟨?_, ?_⟩ <;> decide

/-- `switch_color_constrained` keeps the color inside the CMY set,
whatever the banned mask is. -/
lemma switch_color_constrained_cmy (c : Color) (s : ℕ) (banned : Color)
    (h : isCMY c) : isCMY (switch_color_constrained c s banned).1 := by
  unfold switch_color_constrained
  by_cases hcond : (c &&& banned) = RED ∨ (c &&& banned) = GREEN ∨ (c &&& banned) = BLUE
  · rw [if_pos hcond]
    rcases hcond with h1 | h1 | h1 <;> rw [h1] <;>
      first
        | exact Or.inl rfl
        | exact Or.inr (Or.inl rfl)
        | exact Or.inr (Or.inr rfl)
  · rw [if_neg hcond]
    exact (switch_color_cmy c s h).1

/-- C9: the color switches performed by the multiple-corners branch: with
the banned mask BLACK (all intermediate corners) the switch never repeats
the color used immediately before it, and with the banned mask set to the
contour's initial color (the final corner) it additionally never repeats
that initial color; the result stays a CMY hue. -/
theorem C9_switch_constraints (c init : Color) (seed : ℕ)
    (hc : isCMY c) (hinit : isCMY init) :
    (switch_color_constrained c seed BLACK).1 ≠ c ∧
    (switch_color_constrained c seed init).1 ≠ c ∧
    (switch_color_constrained c seed init).1 ≠ init ∧
    isCMY (switch_color_constrained c seed init).1 := by
  have hone : (switch_color_constrained c seed BLACK).1 ≠ c := by
    unfold switch_color_constrained
    have hcomb : c &&& BLACK = 0 := Nat.and_zero c
    rw [if_neg]
    · exact (switch_color_cmy c seed hc).2
    · rw [hcomb]; rintro (h | h | h) <;> simp [RED, GREEN, BLUE] at h
  refine ⟨hone, ?_⟩
  by_cases heq : c = init
  · subst heq
    have hcomb : c &&& c = c := Nat.and_self c
    unfold switch_color_constrained
    rw [if_neg]
    · exact ⟨(switch_color_cmy c seed hc).2, (switch_color_cmy c seed hc).2,
        (switch_color_cmy c seed hc).1⟩
    · rw [hcomb]
      rcases hc with h | h | h <;> subst h <;> rintro (h | h | h) <;>
        simp [CYAN, MAGENTA, YELLOW, RED, GREEN, BLUE] at h
  · unfold switch_color_constrained
    rcases hc with h1 | h1 | h1 <;> rcases hinit with h2 | h2 | h2 <;>
      subst h1 <;> subst h2 <;>
        first
          | exact absurd rfl heq
          | · rw [if_pos (by decide)]
              dsimp only [isCMY]
              decide

/-- C9 witness: a concrete instantiation (current color CYAN, initial
color MAGENTA, seed 0). -/
theorem C9_switch_constraints_witness :
    (switch_color_constrained CYAN 0 BLACK).1 ≠ CYAN ∧
    (switch_color_constrained CYAN 0 MAGENTA).1 ≠ CYAN ∧
    (switch_color_constrained CYAN 0 MAGENTA).1 ≠ MAGENTA ∧
    isCMY (switch_color_constrained CYAN 0 MAGENTA).1 :=
  C9_switch_constraints CYAN MAGENTA 0 (Or.inl rfl) (Or.inr (Or.inl rfl))

/-! Generic lemmas about index-writing folds, used to characterize the two
`color_edges` branches that write edge colors through index arithmetic. -/

lemma getD_set_self {α : Type} : ∀ (l : List α) (i : ℕ) (a d : α),
    i < l.length → (l.set i a).getD i d = a
  | [], _, _, _, h => absurd h (by simp)
  | _ :: _, 0, _, _, _ => rfl
  | _ :: xs, i + 1, a, d, h =>
      getD_set_self xs i a d (by simpa using h)

lemma getD_set_ne {α : Type} : ∀ (l : List α) (i j : ℕ) (a d : α),
    i ≠ j → (l.set i a).getD j d = l.getD j d
  | [], _, _, _, _, _ => rfl
  | _ :: _, 0, 0, _, _, h => absurd rfl h
  | _ :: _, 0, _ + 1, _, _, _ => rfl
  | _ :: _, _ + 1, 0, _, _, _ => rfl
  | _ :: xs, i + 1, j + 1, a, d, h =>
      getD_set_ne xs i j a d (fun hc => h (by rw [hc]))

/-- The index-writing loop shared by the teardrop (`m >= 3`) and
multiple-corners branches: step `i` overwrites the color of the edge at
index `g i` with `v i`, keeping its segment. -/
def modifyFold (g : ℕ → ℕ) (v : ℕ → Color) (l : List ℕ) (es : List Edge) :
    List Edge :=
  l.foldl (fun es2 i => es2.set (g i) ⟨(es2.getD (g i) default).segment, v i⟩) es

lemma modifyFold_nil (g : ℕ → ℕ) (v : ℕ → Color) (es : List Edge) :
    modifyFold g v [] es = es := rfl

lemma modifyFold_cons (g : ℕ → ℕ) (v : ℕ → Color) (x : ℕ) (xs : List ℕ)
    (es : List Edge) :
    modifyFold g v (x :: xs) es =
      modifyFold g v xs (es.set (g x) ⟨(es.getD (g x) default).segment, v x⟩) := rfl

lemma modifyFold_append (g : ℕ → ℕ) (v : ℕ → Color) (l1 l2 : List ℕ)
    (es : List Edge) :
    modifyFold g v (l1 ++ l2) es = modifyFold g v l2 (modifyFold g v l1 es) := by
  unfold modifyFold
  rw [List.foldl_append]

lemma modifyFold_length (g : ℕ → ℕ) (v : ℕ → Color) :
    ∀ (l : List ℕ) (es : List Edge), (modifyFold g v l es).length = es.length := by
  intro l
  induction l with
  | nil => intro es; rfl
  | cons x xs ih =>
      intro es
      rw [modifyFold_cons, ih, List.length_set]

lemma modifyFold_untouched (g : ℕ → ℕ) (v : ℕ → Color) (j : ℕ) :
    ∀ (l : List ℕ) (es : List Edge), (∀ i ∈ l, g i ≠ j) →
      (modifyFold g v l es).getD j default = es.getD j default := by
  intro l
  induction l with
  | nil => intro es _; rfl
  | cons x xs ih =>
      intro es h
      rw [modifyFold_cons, ih _ (fun i hi => h i (List.mem_cons_of_mem x hi)),
        getD_set_ne _ _ _ _ _ (h x (List.mem_cons_self x xs))]

/-- If index `j` is written exactly once over `i = 0, …, n-1`, namely by
step `i0`, the final entry at `j` is the original entry recolored `v i0`. -/
lemma modifyFold_getD (g : ℕ → ℕ) (v : ℕ → Color) (es : List Edge)
    (j i0 : ℕ) (hj : j < es.length) :
    ∀ n, i0 < n → g i0 = j → (∀ i, i < n → g i = j → i = i0) →
      (modifyFold g v (List.range n) es).getD j default
        = ⟨(es.getD j default).segment, v i0⟩ := by
  intro n
  induction n with
  | zero => intro h0; omega
  | succ n ih =>
      intro hi0 hg huniq
      rw [List.range_succ, modifyFold_append, modifyFold_cons, modifyFold_nil]
      by_cases hn : i0 = n
      · have hgn : g n = j := by rw [← hn]; exact hg
        rw [hgn]
        have hjF : j < (modifyFold g v (List.range n) es).length := by
          rw [modifyFold_length]; exact hj
        have huntouched : ∀ i ∈ List.range n, g i ≠ j := by
          intro i hi hgi
          have h1 : i < n := List.mem_range.1 hi
          have h2 : i = i0 := huniq i (Nat.lt_succ_of_lt h1) hgi
          omega
        rw [getD_set_self _ _ _ _ hjF,
          modifyFold_untouched g v j (List.range n) es huntouched]
        rw [hn]
      · have hgn : g n ≠ j := fun hc => hn ((huniq n (Nat.lt_succ_self n) hc)).symm
        rw [getD_set_ne _ _ _ _ _ hgn]
        exact ih (by omega) hg (fun i hi hgi => huniq i (Nat.lt_succ_of_lt hi) hgi)

/-- Every entry of the written list is either an original entry or carries
one of the written colors. -/
lemma modifyFold_mem (g : ℕ → ℕ) (v : ℕ → Color) :
    ∀ (l : List ℕ) (es : List Edge), ∀ e ∈ modifyFold g v l es,
      e ∈ es ∨ ∃ i ∈ l, e.color = v i := by
  intro l
  induction l with
  | nil => intro es e he; exact Or.inl he
  | cons x xs ih =>
      intro es e he
      rw [modifyFold_cons] at he
      rcases ih _ e he with h | ⟨i, hi, hv⟩
      · rcases List.mem_or_eq_of_mem_set h with h2 | h2
        · exact Or.inl h2
        · exact Or.inr ⟨x, List.mem_cons_self x xs, by rw [h2]⟩
      · exact Or.inr ⟨i, List.mem_cons_of_mem x hi, hv⟩

/-- Index arithmetic for the write pattern `(start + i) % m`: every index
`j < m` is written exactly once, at step `(j + (m - start % m)) % m`. -/
lemma mod_cover (start m j : ℕ) (hm : 0 < m) (hj : j < m) :
    (j + (m - start % m)) % m < m ∧
    (start + (j + (m - start % m)) % m) % m = j ∧
    ∀ i, i < m → (start + i) % m = j → i = (j + (m - start % m)) % m := by
  have hs : start % m < m := Nat.mod_lt _ hm
  have key : (start + (j + (m - start % m)) % m) % m = j := by
    have h1 : start + (j + (m - start % m)) % m ≡
        start % m + (j + (m - start % m)) [MOD m] :=
      Nat.ModEq.add (Nat.mod_modEq start m).symm (Nat.mod_modEq _ m)
    have h2 : start % m + (j + (m - start % m)) = j + m := by omega
    have h3 : (j + m) % m = j % m := Nat.add_mod_right j m
    calc (start + (j + (m - start % m)) % m) % m
        = (start % m + (j + (m - start % m))) % m := h1
      _ = (j + m) % m := by rw [h2]
      _ = j % m := h3
      _ = j := Nat.mod_eq_of_lt hj
  refine ⟨Nat.mod_lt _ hm, key, ?_⟩
  intro i hi hgi
  have hm1 : (start + i) % m = (start + (j + (m - start % m)) % m) % m := by
    rw [hgi, key]
  have hm2 : i ≡ (j + (m - start % m)) % m [MOD m] :=
    Nat.ModEq.add_left_cancel' start hm1
  have := hm2
  unfold Nat.ModEq at this
  rw [Nat.mod_eq_of_lt hi, Nat.mod_eq_of_lt (Nat.mod_lt _ hm)] at this
  exact this

/-- `symmetrical_trichotomy` maps any position `i < m` of a contour with
`m ≥ 3` edges into {-1, 0, 1}, so `1 + symmetrical_trichotomy i m` indexes
the 3-color array in bounds. -/
lemma symmetrical_trichotomy_range (i m : ℕ) (h3 : 3 ≤ m) (hi : i < m) :
    symmetrical_trichotomy (i : ℤ) (m : ℤ) = -1 ∨
    symmetrical_trichotomy (i : ℤ) (m : ℤ) = 0 ∨
    symmetrical_trichotomy (i : ℤ) (m : ℤ) = 1 := by
  unfold symmetrical_trichotomy truncQ
  have hm3 : (3 : ℚ) ≤ (m : ℚ) := by exact_mod_cast h3
  have hm1 : (0 : ℚ) < (m : ℚ) - 1 := by linarith
  have hi0 : (0 : ℚ) ≤ (i : ℚ) := by positivity
  have hfrac0 : (0 : ℚ) ≤ (i : ℚ) / ((m : ℚ) - 1) := by positivity
  have hfrac1 : (i : ℚ) / ((m : ℚ) - 1) ≤ 1 := by
    rw [div_le_one hm1]
    have hle : (i : ℚ) + 1 ≤ (m : ℚ) := by exact_mod_cast hi
    linarith
  have hcast : (((i : ℤ) : ℚ)) = ((i : ℚ)) := by push_cast; ring
  have hcastm : (((m : ℤ) : ℚ)) = ((m : ℚ)) := by push_cast; ring
  rw [hcast, hcastm, mul_div_assoc]
  have hv1 : (2 : ℚ) ≤ 3 + 23 / 8 * ((i : ℚ) / ((m : ℚ) - 1)) - 23 / 16 + 1 / 2 := by
    nlinarith
  have hv2 : 3 + 23 / 8 * ((i : ℚ) / ((m : ℚ) - 1)) - 23 / 16 + 1 / 2 < 5 := by
    nlinarith
  rw [if_neg (by linarith)]
  have h2f : (2 : ℤ) ≤ ⌊3 + 23 / 8 * ((i : ℚ) / ((m : ℚ) - 1)) - 23 / 16 + 1 / 2⌋ :=
    Int.le_floor.2 (by exact_mod_cast hv1)
  have h5f : ⌊3 + 23 / 8 * ((i : ℚ) / ((m : ℚ) - 1)) - 23 / 16 + 1 / 2⌋ < 5 :=
    Int.floor_lt.2 (by exact_mod_cast hv2)
  omega

lemma isEmpty_false_of_ne_nil {α : Type} (l : List α) (h : l ≠ []) :
    l.isEmpty = false := by
  cases l with
  | nil => exact absurd rfl h
  | cons x xs => rfl

lemma split_in_three_length (s : Segment) : s.split_in_three.length = 3 := by
  cases s <;> rfl

/-- `mcStep` keeps the running color in the CMY set. -/
lemma mcStep_cmy (corners : List ℕ) (init : Color) (start m : ℕ)
    (st : ℕ × Color × ℕ) (i : ℕ) (h : isCMY st.2.1) :
    isCMY (mcStep corners init start m st i).2.1 := by
  simp only [mcStep]
  split
  · exact switch_color_constrained_cmy _ _ _ h
  · exact h

lemma mcState_cmy (corners : List ℕ) (init : Color) (start m : ℕ)
    (st0 : ℕ × Color × ℕ) (h : isCMY st0.2.1) :
    ∀ k, isCMY (mcState corners init start m st0 k).2.1 := by
  intro k
  induction k with
  | zero => exact h
  | succ k ih => exact mcStep_cmy _ _ _ _ _ _ ih

/-- The multiple-corners loop factors into the index-writing `modifyFold`
(writing, at step `i`, the color of the state after `i + 1` steps) and the
independent state iteration `mcState`. -/
lemma mc_fold_eq (corners : List ℕ) (init : Color) (start m : ℕ)
    (st0 : ℕ × Color × ℕ) :
    ∀ (k : ℕ) (es : List Edge),
      ((List.range k).foldl (fun (acc : List Edge × (ℕ × Color × ℕ)) i =>
          (acc.1.set ((start + i) % m)
            ⟨(acc.1.getD ((start + i) % m) default).segment,
              (mcStep corners init start m acc.2 i).2.1⟩,
           mcStep corners init start m acc.2 i)) (es, st0))
        = (modifyFold (fun i => (start + i) % m)
            (fun i => (mcState corners init start m st0 (i + 1)).2.1)
            (List.range k) es,
           mcState corners init start m st0 k) := by
  intro k
  induction k with
  | zero => intro es; rfl
  | succ k ih =>
      intro es
      rw [List.range_succ, List.foldl_append, List.foldl_cons, List.foldl_nil,
        modifyFold_append, modifyFold_cons, modifyFold_nil, ih]
      rfl

/-- Unfolding of `processContour` on a smooth (zero-corner) nonempty
contour: every edge is recolored with the single advanced color. -/
lemma processContour_smooth_eq (ops : FOps) (thr : ℚ) (st : Color × ℕ)
    (c : Contour) (hne : c.edges ≠ []) (hsm : cornersOf ops thr c.edges = []) :
    processContour ops thr st c =
      (⟨c.edges.map (fun e => { e with color := (switch_color st.1 st.2).1 })⟩,
        switch_color st.1 st.2) := by
  unfold processContour
  simp only [isEmpty_false_of_ne_nil _ hne, Bool.false_eq_true, if_false, hsm,
    List.isEmpty_nil, if_true]

/-- The three colors chosen by the teardrop branch. -/
def teardropColors (st : Color × ℕ) : List Color :=
  [(switch_color st.1 st.2).1, WHITE,
   (switch_color (switch_color st.1 st.2).1 (switch_color st.1 st.2).2).1]

/-- The (color, seed) state left by the teardrop branch. -/
def teardropState (st : Color × ℕ) : Color × ℕ :=
  switch_color (switch_color st.1 st.2).1 (switch_color st.1 st.2).2

lemma teardropColors_cmyw (st : Color × ℕ) (hst : isCMY st.1) :
    ∀ col ∈ teardropColors st, col = WHITE ∨ isCMY col := by
  intro col hcol
  rw [teardropColors] at hcol
  simp only [List.mem_cons, List.not_mem_nil, or_false] at hcol
  rcases hcol with h | h | h <;> rw [h]
  · exact Or.inr ((switch_color_cmy _ _ hst).1)
  · exact Or.inl rfl
  · exact Or.inr ((switch_color_cmy _ _ (switch_color_cmy _ _ hst).1).1)

/-- Unfolding of `processContour` on a one-corner contour with at least
three edges. -/
lemma processContour_teardrop3_eq (ops : FOps) (thr : ℚ) (st : Color × ℕ)
    (c : Contour) (corner : ℕ)
    (hc : cornersOf ops thr c.edges = [corner]) (h3 : 3 ≤ c.edges.length) :
    processContour ops thr st c =
      (⟨modifyFold (fun i => (corner + i) % c.edges.length)
          (fun i => (teardropColors st).getD
            (1 + symmetrical_trichotomy (i : ℤ) (c.edges.length : ℤ)).toNat BLACK)
          (List.range c.edges.length) c.edges⟩,
       teardropState st) := by
  have hne : c.edges ≠ [] := by
    intro h; rw [h] at h3; simp at h3
  unfold processContour
  simp only [isEmpty_false_of_ne_nil _ hne, Bool.false_eq_true, if_false, hc,
    List.isEmpty_cons, List.length_singleton, if_true]
  rw [if_pos h3]
  rfl

/-- Unfolding of `processContour` on a one-corner contour with exactly 2
edges: both edges are split in three and the six pieces are coloured in
pairs. -/
lemma processContour_teardrop2_eq (ops : FOps) (thr : ℚ) (st : Color × ℕ)
    (c : Contour) (corner : ℕ)
    (hc : cornersOf ops thr c.edges = [corner]) (h2 : c.edges.length = 2) :
    processContour ops thr st c =
      (⟨(((c.edges.getD corner default).segment.split_in_three ++
          (c.edges.getD (1 - corner) default).segment.split_in_three).zip
         ((teardropColors st).flatMap (fun col => [col, col]))).map
         (fun sc => sc.1.colored sc.2)⟩,
       teardropState st) := by
  have hne : c.edges ≠ [] := by
    intro h; rw [h] at h2; simp at h2
  unfold processContour
  simp only [isEmpty_false_of_ne_nil _ hne, Bool.false_eq_true, if_false, hc,
    List.isEmpty_cons, List.length_singleton, if_true]
  rw [if_neg (by omega), if_pos h2]
  rfl

/-- Unfolding of `processContour` on a one-corner contour with exactly 1
edge: the edge is split in three, one piece per colour. -/
lemma processContour_teardrop1_eq (ops : FOps) (thr : ℚ) (st : Color × ℕ)
    (c : Contour) (corner : ℕ)
    (hc : cornersOf ops thr c.edges = [corner]) (h1 : c.edges.length = 1) :
    processContour ops thr st c =
      (⟨((c.edges.getD 0 default).segment.split_in_three.zip
          (teardropColors st)).map (fun sc => sc.1.colored sc.2)⟩,
       teardropState st) := by
  have hne : c.edges ≠ [] := by
    intro h; rw [h] at h1; simp at h1
  unfold processContour
  simp only [isEmpty_false_of_ne_nil _ hne, Bool.false_eq_true, if_false, hc,
    List.isEmpty_cons, List.length_singleton, if_true]
  rw [if_neg (by omega), if_neg (by omega)]
  rfl

/-- Unfolding of `processContour` on a contour with two or more corners. -/
lemma processContour_multi_eq (ops : FOps) (thr : ℚ) (st : Color × ℕ)
    (c : Contour) (hne : c.edges ≠ [])
    (hcne : cornersOf ops thr c.edges ≠ [])
    (hclen : (cornersOf ops thr c.edges).length ≠ 1) :
    processContour ops thr st c =
      (⟨modifyFold
          (fun i => ((cornersOf ops thr c.edges).getD 0 0 + i) % c.edges.length)
          (fun i => (mcState (cornersOf ops thr c.edges) (switch_color st.1 st.2).1
              ((cornersOf ops thr c.edges).getD 0 0) c.edges.length
              (0, (switch_color st.1 st.2).1, (switch_color st.1 st.2).2) (i + 1)).2.1)
          (List.range c.edges.length) c.edges⟩,
       ((mcState (cornersOf ops thr c.edges) (switch_color st.1 st.2).1
           ((cornersOf ops thr c.edges).getD 0 0) c.edges.length
           (0, (switch_color st.1 st.2).1, (switch_color st.1 st.2).2)
           c.edges.length).2.1,
        (mcState (cornersOf ops thr c.edges) (switch_color st.1 st.2).1
           ((cornersOf ops thr c.edges).getD 0 0) c.edges.length
           (0, (switch_color st.1 st.2).1, (switch_color st.1 st.2).2)
           c.edges.length).2.2)) := by
  unfold processContour
  simp only [isEmpty_false_of_ne_nil _ hne, Bool.false_eq_true, if_false,
    isEmpty_false_of_ne_nil _ hcne]
  rw [if_neg (fun hc => hclen hc)]
  rw [mc_fold_eq]

lemma getD_mem_of_lt {α : Type} : ∀ (l : List α) (k : ℕ) (d : α),
    k < l.length → l.getD k d ∈ l
  | [], k, _, h => absurd h (by simp)
  | x :: xs, 0, _, _ => List.mem_cons_self x xs
  | x :: xs, k + 1, d, h =>
      List.mem_cons_of_mem x (getD_mem_of_lt xs k d (by simpa using h))

lemma getD_of_mem {α : Type} : ∀ (l : List α) (e d : α), e ∈ l →
    ∃ j, j < l.length ∧ l.getD j d = e
  | [], e, _, h => absurd h (List.not_mem_nil e)
  | x :: xs, e, d, h => by
      rcases List.mem_cons.1 h with h | h
      · exact ⟨0, by simp, h.symm⟩
      · obtain ⟨j, hj, hg⟩ := getD_of_mem xs e d h
        exact ⟨j + 1, by simpa using hj, hg⟩

/-- If the write pattern covers every index exactly once and every written
color is WHITE or a CMY hue, then so is every edge of the result. -/
lemma modifyFold_covered_colors (g : ℕ → ℕ) (v : ℕ → Color) (m : ℕ)
    (es : List Edge) (hlen : es.length = m)
    (hcover : ∀ j, j < m → ∃ i0, i0 < m ∧ g i0 = j ∧ ∀ i, i < m → g i = j → i = i0)
    (hv : ∀ i, i < m → v i = WHITE ∨ isCMY (v i)) :
    ∀ e ∈ modifyFold g v (List.range m) es, e.color = WHITE ∨ isCMY e.color := by
  intro e he
  obtain ⟨j, hj, hgd⟩ := getD_of_mem _ e default he
  rw [modifyFold_length, hlen] at hj
  obtain ⟨i0, hi0, hg, huniq⟩ := hcover j hj
  rw [modifyFold_getD g v es j i0 (by omega) m hi0 hg huniq] at hgd
  rw [← hgd]
  exact hv i0 hi0

/-- Every edge of a processed contour is coloured WHITE or a CMY hue,
provided the incoming colour state is a CMY hue. -/
lemma processContour_colors (ops : FOps) (thr : ℚ) (st : Color × ℕ)
    (c : Contour) (hst : isCMY st.1) :
    ∀ e ∈ (processContour ops thr st c).1.edges, e.color = WHITE ∨ isCMY e.color := by
  by_cases h0 : c.edges.isEmpty
  · unfold processContour
    rw [if_pos h0]
    intro e he
    rw [List.isEmpty_iff.1 h0] at he
    exact absurd he (List.not_mem_nil e)
  · have hne : c.edges ≠ [] := fun hc => h0 (by rw [hc]; rfl)
    by_cases h1 : cornersOf ops thr c.edges = []
    · rw [processContour_smooth_eq ops thr st c hne h1]
      intro e he
      rcases List.mem_map.1 he with ⟨e0, _, he0⟩
      rw [← he0]
      exact Or.inr (switch_color_cmy _ _ hst).1
    · by_cases h2 : (cornersOf ops thr c.edges).length = 1
      · obtain ⟨corner, hcor⟩ : ∃ corner, cornersOf ops thr c.edges = [corner] :=
          List.length_eq_one.1 h2
        by_cases h3 : 3 ≤ c.edges.length
        · rw [processContour_teardrop3_eq ops thr st c corner hcor h3]
          refine modifyFold_covered_colors _ _ c.edges.length c.edges rfl
            (fun j hj => ?_) (fun i hi => ?_)
          · obtain ⟨hlt, hhit, huniq⟩ := mod_cover corner c.edges.length j (by omega) hj
            exact ⟨_, hlt, hhit, huniq⟩
          · rcases symmetrical_trichotomy_range i c.edges.length h3 hi with h | h | h <;>
              rw [h] <;>
                exact teardropColors_cmyw st hst _
                  (getD_mem_of_lt _ _ _
                    (by rw [show (teardropColors st).length = 3 from rfl]; decide))
        · by_cases h4 : c.edges.length = 2
          · rw [processContour_teardrop2_eq ops thr st c corner hcor h4]
            intro e he
            rcases List.mem_map.1 he with ⟨sc, hsc, hesc⟩
            have hcolmem := (List.of_mem_zip hsc).2
            rcases List.mem_flatMap.1 hcolmem with ⟨col, hcol, hdup⟩
            have : sc.2 = col := by
              simp only [List.mem_cons, List.not_mem_nil, or_false, or_self] at hdup
              exact hdup
            rw [← hesc]
            show sc.2 = WHITE ∨ isCMY sc.2
            rw [this]
            exact teardropColors_cmyw st hst col hcol
          · have hm1 : c.edges.length = 1 := by
              have : 0 < c.edges.length := List.length_pos.2 hne
              omega
            rw [processContour_teardrop1_eq ops thr st c corner hcor hm1]
            intro e he
            rcases List.mem_map.1 he with ⟨sc, hsc, hesc⟩
            have hcolmem := (List.of_mem_zip hsc).2
            rw [← hesc]
            show sc.2 = WHITE ∨ isCMY sc.2
            exact teardropColors_cmyw st hst _ hcolmem
      · rw [processContour_multi_eq ops thr st c hne h1 h2]
        refine modifyFold_covered_colors _ _ c.edges.length c.edges rfl
          (fun j hj => ?_) (fun i _ => ?_)
        · obtain ⟨hlt, hhit, huniq⟩ := mod_cover ((cornersOf ops thr c.edges).getD 0 0)
            c.edges.length j (List.length_pos.2 hne) hj
          exact ⟨_, hlt, hhit, huniq⟩
        · exact Or.inr (mcState_cmy _ _ _ _ _ (switch_color_cmy _ _ hst).1 _)

/-- The (color, seed) state is threaded through `processContour` keeping
the colour inside the CMY set. -/
lemma processContour_state (ops : FOps) (thr : ℚ) (st : Color × ℕ)
    (c : Contour) (hst : isCMY st.1) :
    isCMY (processContour ops thr st c).2.1 := by
  by_cases h0 : c.edges.isEmpty
  · unfold processContour
    rw [if_pos h0]
    exact hst
  · have hne : c.edges ≠ [] := fun hc => h0 (by rw [hc]; rfl)
    by_cases h1 : cornersOf ops thr c.edges = []
    · rw [processContour_smooth_eq ops thr st c hne h1]
      exact (switch_color_cmy _ _ hst).1
    · by_cases h2 : (cornersOf ops thr c.edges).length = 1
      · obtain ⟨corner, hcor⟩ : ∃ corner, cornersOf ops thr c.edges = [corner] :=
          List.length_eq_one.1 h2
        have hts : isCMY (teardropState st).1 :=
          (switch_color_cmy _ _ (switch_color_cmy _ _ hst).1).1
        by_cases h3 : 3 ≤ c.edges.length
        · rw [processContour_teardrop3_eq ops thr st c corner hcor h3]
          exact hts
        · by_cases h4 : c.edges.length = 2
          · rw [processContour_teardrop2_eq ops thr st c corner hcor h4]
            exact hts
          · have hm1 : c.edges.length = 1 := by
              have : 0 < c.edges.length := List.length_pos.2 hne
              omega
            rw [processContour_teardrop1_eq ops thr st c corner hcor hm1]
            exact hts
      · rw [processContour_multi_eq ops thr st c hne h1 h2]
        exact mcState_cmy _ _ _ _ _ (switch_color_cmy _ _ hst).1 _

/-- The contour list produced by `processContours` has the input's length,
and each output contour is the processed input contour at some CMY state. -/
lemma processContours_spec (ops : FOps) (thr : ℚ) :
    ∀ (cs : List Contour) (st : Color × ℕ), isCMY st.1 →
      (processContours ops thr st cs).1.length = cs.length ∧
      ∀ i, i < cs.length → ∃ st2 : Color × ℕ, isCMY st2.1 ∧
        (processContours ops thr st cs).1.getD i default =
          (processContour ops thr st2 (cs.getD i default)).1 := by
  intro cs
  induction cs with
  | nil =>
      intro st hst
      exact ⟨rfl, fun i hi => absurd hi (by simp)⟩
  | cons c rest ih =>
      intro st hst
      have hstep : isCMY (processContour ops thr st c).2.1 :=
        processContour_state ops thr st c hst
      obtain ⟨hlen, hidx⟩ := ih (processContour ops thr st c).2 hstep
      constructor
      · simp only [processContours]
        rw [List.length_cons, List.length_cons, hlen]
      · intro i hi
        simp only [processContours]
        cases i with
        | zero => exact ⟨st, hst, rfl⟩
        | succ i =>
            obtain ⟨st2, hst2, hgd⟩ := hidx i (by simpa using hi)
            exact ⟨st2, hst2, hgd⟩

lemma init_color_cmy (seed : ℕ) : isCMY (init_color seed).1 := by
  have h3 : seed % 3 = 0 ∨ seed % 3 = 1 ∨ seed % 3 = 2 := by omega
  rcases h3 with h | h | h <;>
    simp [init_color, extract_seed_mod3, h, isCMY]

/-- C3: after `color_edges`, every edge of every contour carries a
non-empty color mask: no edge's mask is BLACK (the empty set). This holds
for arbitrary input shapes, angles and seeds: the colour state always
stays in {CYAN, MAGENTA, YELLOW} and every branch overwrites every edge
with such a hue or with WHITE. -/
theorem C3_nonempty_masks (ops : FOps) (s : Shape) (angle : ℚ) (seed : ℕ) :
    ∀ c ∈ (s.color_edges ops angle seed).contours, ∀ e ∈ c.edges,
      e.color ≠ BLACK := by
  intro c hc e he
  have hcontours : (s.color_edges ops angle seed).contours =
      (processContours ops (ops.sin angle) (init_color seed) s.contours).1 := rfl
  rw [hcontours] at hc
  obtain ⟨i, hi, hgd⟩ := getD_of_mem _ c default hc
  obtain ⟨hlen, hidx⟩ :=
    processContours_spec ops (ops.sin angle) s.contours (init_color seed)
      (init_color_cmy seed)
  rw [hlen] at hi
  obtain ⟨st2, hst2, hout⟩ := hidx i hi
  rw [hgd] at hout
  rw [hout] at he
  rcases processContour_colors ops (ops.sin angle) st2 _ hst2 e he with h | h
  · rw [h]; decide
  · rcases h with h | h | h <;> rw [h] <;> decide

/-- Trivial operation record used for concrete coloring witnesses. -/
def zeroOps : FOps :=
  ⟨fun _ => 0, fun _ => 0, fun _ => 0, fun _ => 0, fun _ => 0⟩

/-- One-contour shape with a single line edge. -/
def lineShape : Shape :=
  ⟨[⟨[(Segment.Line ⟨0, 0⟩ ⟨1, 0⟩).white_edge]⟩], ⟨0, 0, 1, 1⟩⟩

/-- C3 witness: the first edge produced from the one-edge shape. -/
theorem C3_nonempty_masks_witness :
    (((lineShape.color_edges zeroOps 1 0).contours.getD 0 default).edges.getD 0
      default).color ≠ BLACK :=
  C3_nonempty_masks zeroOps lineShape 1 0
    ((lineShape.color_edges zeroOps 1 0).contours.getD 0 default)
    (by with_unfolding_all decide)
    (((lineShape.color_edges zeroOps 1 0).contours.getD 0 default).edges.getD 0
      default)
    (by with_unfolding_all decide)

/-- C7: a contour in which no vertex is detected as a corner gets one
single colour on all of its edges, and that colour is CYAN, MAGENTA or
YELLOW — never WHITE and never BLACK. -/
theorem C7_smooth_single_color (ops : FOps) (s : Shape) (angle : ℚ) (seed : ℕ)
    (i : ℕ) (hi : i < s.contours.length)
    (hne : (s.contours.getD i default).edges ≠ [])
    (hsm : cornersOf ops (ops.sin angle) (s.contours.getD i default).edges = []) :
    ∃ col, (col = CYAN ∨ col = MAGENTA ∨ col = YELLOW) ∧
      ∀ e ∈ ((s.color_edges ops angle seed).contours.getD i default).edges,
        e.color = col := by
  have hcontours : (s.color_edges ops angle seed).contours =
      (processContours ops (ops.sin angle) (init_color seed) s.contours).1 := rfl
  obtain ⟨hlen, hidx⟩ :=
    processContours_spec ops (ops.sin angle) s.contours (init_color seed)
      (init_color_cmy seed)
  obtain ⟨st2, hst2, hout⟩ := hidx i hi
  rw [hcontours, hout,
    processContour_smooth_eq ops (ops.sin angle) st2 _ hne hsm]
  refine ⟨(switch_color st2.1 st2.2).1, (switch_color_cmy _ _ hst2).1, ?_⟩
  intro e he
  rcases List.mem_map.1 he with ⟨e0, _, he0⟩
  rw [← he0]

/-- C7 witness: the one-edge line shape with a generous corner threshold
has no detected corners, and its edge comes out in a single CMY hue. -/
theorem C7_smooth_single_color_witness :
    ∃ col, (col = CYAN ∨ col = MAGENTA ∨ col = YELLOW) ∧
      ∀ e ∈ ((lineShape.color_edges qOps 1 0).contours.getD 0 default).edges,
        e.color = col :=
  C7_smooth_single_color qOps lineShape 1 0 0 (by decide)
    (by with_unfolding_all decide) (by with_unfolding_all decide)

/-- C8: a teardrop contour (one detected corner) with exactly 2 edges is
replaced by 6 sub-edges — each original edge split in three — and each
consecutive pair of sub-edges shares one colour. -/
theorem C8_teardrop_two_edges (ops : FOps) (s : Shape) (angle : ℚ) (seed : ℕ)
    (i corner : ℕ) (hi : i < s.contours.length)
    (hc : cornersOf ops (ops.sin angle) (s.contours.getD i default).edges = [corner])
    (h2 : (s.contours.getD i default).edges.length = 2) :
    ((s.color_edges ops angle seed).contours.getD i default).edges.length = 6 ∧
    (∀ k, k < 3 →
      ((((s.color_edges ops angle seed).contours.getD i default).edges.getD
          (2 * k) default).color =
        (((s.color_edges ops angle seed).contours.getD i default).edges.getD
          (2 * k + 1) default).color)) ∧
    ((s.color_edges ops angle seed).contours.getD i default).edges.map
        Edge.segment =
      ((s.contours.getD i default).edges.getD corner default).segment.split_in_three ++
      ((s.contours.getD i default).edges.getD (1 - corner)
        default).segment.split_in_three := by
  have hcontours : (s.color_edges ops angle seed).contours =
      (processContours ops (ops.sin angle) (init_color seed) s.contours).1 := rfl
  obtain ⟨hlen, hidx⟩ :=
    processContours_spec ops (ops.sin angle) s.contours (init_color seed)
      (init_color_cmy seed)
  obtain ⟨st2, _, hout⟩ := hidx i hi
  rw [hcontours, hout,
    processContour_teardrop2_eq ops (ops.sin angle) st2 _ corner hc h2]
  obtain ⟨a1, a2, a3, ha⟩ := List.length_eq_three.1
    (split_in_three_length
      ((s.contours.getD i default).edges.getD corner default).segment)
  obtain ⟨b1, b2, b3, hb⟩ := List.length_eq_three.1
    (split_in_three_length
      ((s.contours.getD i default).edges.getD (1 - corner) default).segment)
  rw [ha, hb]
  refine ⟨rfl, ?_, by simp [teardropColors, Segment.colored]⟩
  intro k hk
  have h3 : k = 0 ∨ k = 1 ∨ k = 2 := by omega
  rcases h3 with h | h | h <;> subst h <;> rfl

/-- One-contour shape forming a teardrop: a line and a quadratic that
meet smoothly at one end and at a sharp corner at the other. -/
def teardropShape : Shape :=
  ⟨[⟨[(Segment.Line ⟨0, 0⟩ ⟨1, 0⟩).white_edge,
      (Segment.Quad ⟨1, 0⟩ ⟨-1, 0⟩ ⟨0, 0⟩).white_edge]⟩], ⟨0, 0, 1, 1⟩⟩

/-- C8 witness: the 2-edge teardrop shape has its single corner detected
at index 1 and is split into 6 paired sub-edges. -/
theorem C8_teardrop_two_edges_witness :
    ((teardropShape.color_edges qOps 1 0).contours.getD 0 default).edges.length = 6 ∧
    (∀ k, k < 3 →
      ((((teardropShape.color_edges qOps 1 0).contours.getD 0 default).edges.getD
          (2 * k) default).color =
        (((teardropShape.color_edges qOps 1 0).contours.getD 0 default).edges.getD
          (2 * k + 1) default).color)) ∧
    ((teardropShape.color_edges qOps 1 0).contours.getD 0 default).edges.map
        Edge.segment =
      ((teardropShape.contours.getD 0 default).edges.getD 1
        default).segment.split_in_three ++
      ((teardropShape.contours.getD 0 default).edges.getD (1 - 1)
        default).segment.split_in_three :=
  C8_teardrop_two_edges qOps teardropShape 1 0 0 1 (by decide)
    (by with_unfolding_all decide) (by with_unfolding_all decide)

end Mtsdf
